import Mathlib

/-!
# Verification of the orbit workflow-orchestration core

A shallow embedding of the execution core of the `orbit` workflow engine
(`src/orbit/services` and `src/orbit/models`) together with proofs about it.

Conventions used throughout:

* Python `float` configuration values are modelled as rationals (`ℚ`);
  the delay formulas use only `*`, `min`, `max`, so the algebraic
  structure is identical.
* Python `dict`s keyed by strings are modelled as total functions
  (`String → Int`) updated with `Function.update`, or as association
  lists when iteration order matters.
* SHA-256 digests are modelled by an explicit function parameter
  `String → String`: no property of the digest function is assumed by
  a definition, and each theorem quantifies over it (or instantiates it
  with a concrete function when only a concrete run is needed).
* Database reads/writes performed by a service method are modelled by
  explicit state passing: the method becomes a pure function from the
  relevant state to the updated state.
-/

namespace Orbit

/-! ## Retry policy (`orbit/models/retry_policy.py`)

`RetryPolicy.calculate_delay` computes exponential backoff; the random
jitter sample `random.uniform(-jitter_range, jitter_range)` is modelled
as `u * jitter_range` for a normalized sample `u` passed explicitly
(claims below always take `jitter = false`, making `u` irrelevant). -/

structure RetryPolicy where
  max_retries : Nat := 0
  initial_delay : ℚ := 1
  max_delay : ℚ := 60
  backoff_multiplier : ℚ := 2
  jitter : Bool := true
deriving DecidableEq, Repr

/-- `RetryPolicy.calculate_delay` from `retry_policy.py` lines 25-49:
returns `0` once `attempt >= max_retries`, otherwise
`max(0, jittered(min(initial_delay * multiplier ^ attempt, max_delay)))`. -/
def RetryPolicy.calculate_delay (p : RetryPolicy) (attempt : Nat) (u : ℚ) : ℚ :=
  if p.max_retries ≤ attempt then 0
  else
    let delay := min (p.initial_delay * p.backoff_multiplier ^ attempt) p.max_delay
    let delay2 := if p.jitter then delay + u * (delay * (25 / 100)) else delay
    max 0 delay2

/-- `RetryPolicy.should_retry`: `attempt < max_retries`. -/
def RetryPolicy.should_retry (p : RetryPolicy) (attempt : Nat) : Bool :=
  decide (attempt < p.max_retries)

/-! ## Workflow controller (`orbit/services/pause_resume.py`)

`pause_workflow` / `resume_workflow` / `cancel_workflow` read one
workflow row and update its `status` / `paused_at` columns.  The
workflow row is modelled by the two columns the controller touches;
`datetime` instants are modelled as `Nat`.  A raised `ValueError`
becomes `Except.error` with the (apostrophe-free rendering of the)
message. -/

structure CtlWorkflow where
  status : String
  paused_at : Option Nat
deriving DecidableEq, Repr

/-- `WorkflowControlService.pause_workflow` (lines 28-75): only
`running`/`pending` may be paused; an already-set `paused_at` short
circuits as a no-op; otherwise status becomes `paused` and `paused_at`
is stamped with the current instant. -/
def pause_workflow (w : CtlWorkflow) (now : Nat) : Except String CtlWorkflow :=
  if ¬ (w.status = "running" ∨ w.status = "pending") then
    .error ("Cannot pause workflow in " ++ w.status ++ " state")
  else if w.paused_at.isSome then
    .ok w
  else
    .ok { status := "paused", paused_at := some now }

/-- `WorkflowControlService.resume_workflow` (lines 77-126): only
`paused` may be resumed; both branches set status `pending`, and the
branch with `paused_at` set clears it. -/
def resume_workflow (w : CtlWorkflow) : Except String CtlWorkflow :=
  if ¬ w.status = "paused" then
    .error ("Cannot resume workflow in " ++ w.status ++ " state")
  else if w.paused_at.isSome then
    .ok { status := "pending", paused_at := none }
  else
    .ok { status := "pending", paused_at := w.paused_at }

/-- `WorkflowControlService.cancel_workflow` (lines 128-170): terminal
states cannot be cancelled; otherwise status becomes `cancelled`.
Note that `paused_at` is left untouched by the source. -/
def cancel_workflow (w : CtlWorkflow) : Except String CtlWorkflow :=
  if w.status = "completed" ∨ w.status = "failed" ∨ w.status = "cancelled" then
    .error ("Cannot cancel workflow in " ++ w.status ++ " state")
  else
    .ok { w with status := "cancelled" }

/-- The §3 data-model invariant: `paused_at` is non-null iff the status
is `paused`. -/
def PausedIff (w : CtlWorkflow) : Prop :=
  w.paused_at.isSome ↔ w.status = "paused"

/-- An `Except` result is an error. -/
def isErr {ε α : Type} : Except ε α → Bool
  | .error _ => true
  | .ok _ => false

/-! ## Idempotency key derivation (`orbit/services/idempotency_service.py`)

`IdempotencyService.generate_key` builds `workflow_id:task_name` and, when
the payload is truthy (a non-empty dict), appends the first 16 hex chars of
the SHA-256 of `json.dumps(payload, sort_keys=True)`.  JSON scalar values
are modelled by `JVal`; a payload dict by an association list; the
truncated digest by the parameter `sha16`. -/

inductive JVal where
  | jstr (v : String)
  | jint (v : Int)
  | jbool (v : Bool)
  | jnull
deriving DecidableEq, Repr

/-- JSON rendering of one scalar value (string escaping is immaterial to
every claim and is omitted). -/
def JVal.dump : JVal → String
  | .jstr v => "\"" ++ v ++ "\""
  | .jint v => toString v
  | .jbool true => "true"
  | .jbool false => "false"
  | .jnull => "null"

/-- `json.dumps(payload, sort_keys=True)` for a flat JSON object. -/
def dumpsSorted (p : List (String × JVal)) : String :=
  let sorted := p.mergeSort (fun a b => decide (a.1 ≤ b.1))
  "\x7b" ++ String.intercalate ","
    (sorted.map fun kv => "\"" ++ kv.1 ++ "\":" ++ kv.2.dump) ++ "\x7d"

/-- `IdempotencyService.generate_key` (lines 29-55).  `payload = none`
models Python `None`; `some []` models `{}` — both are falsy in
`if payload:`. -/
def generate_key (sha16 : String → String) (workflow_id task_name : String)
    (payload : Option (List (String × JVal))) : String :=
  let key_parts := [workflow_id, task_name]
  let key_parts :=
    match payload with
    | some p => if p.isEmpty then key_parts else key_parts ++ [sha16 (dumpsSorted p)]
    | none => key_parts
  String.intercalate ":" key_parts

/-! ## Versioning engine (`orbit/services/versioning_service.py`)

The stored rows for one workflow are modelled by `VersionStore`
(`versions` in insertion order — version numbers strictly increase, so
the SQL query `order by version_number desc ... first()` returns the
last element — plus the append-only change log).  The snapshotted
definition (`workflow_data` JSON) is `WfData`; `action_payload` and
`retry_policy` are opaque to the service and modelled as strings.  The
checksum function (`sha256 ∘ json.dumps(sort_keys=True)`) is the
parameter `ck`. -/

structure VTask where
  name : String
  action_type : String
  action_payload : String
  dependencies : List String
  retry_policy : Option String
  timeout_seconds : Option Nat
deriving DecidableEq, Repr

structure WfData where
  name : String
  description : Option String
  tasks : List VTask
deriving DecidableEq, Repr

/-- The fields of a `Workflow` row that the versioning service reads and
writes. -/
structure VWorkflow where
  name : String
  description : Option String
  tasks : List VTask
deriving DecidableEq, Repr

structure WorkflowVersion where
  version_number : Nat
  version_tag : Option String
  name : String
  description : Option String
  workflow_data : WfData
  change_summary : Option String
  changed_by : Option String
  is_active : Bool
  is_draft : Bool
  checksum : String
deriving DecidableEq, Repr

structure ChangeLogEntry where
  from_version : Option Nat
  to_version : Nat
  change_type : String
  changed_by : Option String
  change_reason : Option String
deriving DecidableEq, Repr

structure VersionStore where
  versions : List WorkflowVersion
  changelog : List ChangeLogEntry
deriving DecidableEq, Repr

/-- The snapshot taken by `create_version` (lines 104-118). -/
def snapshotData (wf : VWorkflow) : WfData :=
  ⟨wf.name, wf.description, wf.tasks⟩

/-- `VersioningService.create_version` (lines 71-174).  Reads the latest
version (highest `version_number` = last of the list), skips creation on
identical checksum, deactivates the **latest** version when creating a
non-draft (this is the only deactivation the source performs), appends
the new version and a change-log row. -/
def create_version (ck : WfData → String) (st : VersionStore) (wf : VWorkflow)
    (change_summary : Option String) (changed_by : Option String)
    (version_tag : Option String) (is_draft : Bool) :
    VersionStore × WorkflowVersion :=
  let latest := st.versions.getLast?
  let version_number := match latest with
    | none => 1
    | some v => v.version_number + 1
  let workflow_data := snapshotData wf
  let checksum := ck workflow_data
  match latest with
  | some lv =>
    if lv.checksum = checksum then (st, lv)
    else
      let versions1 :=
        if ¬ is_draft ∧ lv.is_active then
          st.versions.dropLast ++ [{ lv with is_active := false }]
        else st.versions
      let new_version : WorkflowVersion :=
        { version_number := version_number, version_tag := version_tag,
          name := wf.name, description := wf.description,
          workflow_data := workflow_data, change_summary := change_summary,
          changed_by := changed_by, is_active := ¬ is_draft,
          is_draft := is_draft, checksum := checksum }
      let log : ChangeLogEntry :=
        { from_version := some lv.version_number, to_version := version_number,
          change_type := "updated", changed_by := changed_by,
          change_reason := change_summary }
      (⟨versions1 ++ [new_version], st.changelog ++ [log]⟩, new_version)
  | none =>
    let new_version : WorkflowVersion :=
      { version_number := version_number, version_tag := version_tag,
        name := wf.name, description := wf.description,
        workflow_data := workflow_data, change_summary := change_summary,
        changed_by := changed_by, is_active := ¬ is_draft,
        is_draft := is_draft, checksum := checksum }
    let log : ChangeLogEntry :=
      { from_version := none, to_version := version_number,
        change_type := "created", changed_by := changed_by,
        change_reason := change_summary }
    (⟨st.versions ++ [new_version], st.changelog ++ [log]⟩, new_version)

/-- `VersioningService.rollback_to_version` (lines 226-290).  Copies
`name`/`description` from the target version onto the workflow (the
source does **not** touch the task list), snapshots a new version via
`create_version`, and appends a `rolled_back` change-log row. -/
def rollback_to_version (ck : WfData → String) (st : VersionStore)
    (wf : VWorkflow) (version_number : Nat) (changed_by : Option String) :
    Except String (VersionStore × VWorkflow × WorkflowVersion) :=
  match st.versions.find? (fun v => v.version_number = version_number) with
  | none => .error ("Version " ++ toString version_number ++ " not found")
  | some target =>
    let wf2 : VWorkflow :=
      { wf with name := target.name, description := target.description }
    let summary := "Rolled back to version " ++ toString version_number
    let (st1, new_version) :=
      create_version ck st wf2 (some summary) changed_by none false
    let log : ChangeLogEntry :=
      { from_version := some (new_version.version_number - 1),
        to_version := new_version.version_number,
        change_type := "rolled_back", changed_by := changed_by,
        change_reason := some summary }
    .ok (⟨st1.versions, st1.changelog ++ [log]⟩, wf2, new_version)

/-- Number of versions flagged active in a store. -/
def activeCount (st : VersionStore) : Nat :=
  st.versions.countP (fun v => v.is_active)

/-! ## DAG executor (`orbit/services/dag_executor.py`)

`DAGExecutor.topological_sort` is Kahn's algorithm producing layers.
The dicts `task_map` / `in_degree` / `adjacency` are keyed by task name;
`in_degree` is modelled as a total function `String → Int` (Python ints)
built from the same double loop as the source, and the dict key
iteration order (insertion order with first-occurrence deduplication)
by `dictKeys`.  The `while queue` loop runs at most once per task, so it
is given `tasks.length + 1` fuel; `sortLoop_fuel_sufficient` below shows
the fuel branch is unreachable. -/

structure Task where
  name : String
  dependencies : List String
deriving DecidableEq, Repr

inductive SortError where
  | unknownDependency (taskName dep : String)
  | cycle
deriving DecidableEq, Repr

def names (tasks : List Task) : List String :=
  tasks.map Task.name

/-- Dependencies of the task called `n` (first task with that name, as
`task_map` retains; `[]` when no task is called `n`). -/
def depsOf (tasks : List Task) (n : String) : List String :=
  match tasks.find? (fun t => t.name = n) with
  | some t => t.dependencies
  | none => []

/-- The first `(task.name, dep)` with `dep not in task_map`, in the
iteration order of the in-degree build loop (lines 33-40). -/
def findMissing (tasks : List Task) : Option (String × String) :=
  tasks.findSome? (fun t =>
    (t.dependencies.find? (fun d => ¬ (names tasks).contains d)).map
      (fun d => (t.name, d)))

/-- Final value of `in_degree[n]`: one increment per pair
`(task, dep)` with `task.name = n` (lines 33-40). -/
def inDeg0 (tasks : List Task) (n : String) : Int :=
  ((tasks.flatMap (fun t => t.dependencies.map (fun _ => t.name))).count n : Int)

/-- Final value of `adjacency[d]`: `task.name` appended once per
occurrence of `d` in `task.dependencies`, in iteration order. -/
def adjacency (tasks : List Task) (d : String) : List String :=
  tasks.flatMap (fun t =>
    t.dependencies.filterMap (fun dep => if dep = d then some t.name else none))

/-- Dict keys of `in_degree` / `adjacency`: task names in first-occurrence
order. -/
def dictKeys (tasks : List Task) : List String :=
  tasks.foldl (fun ks t => if t.name ∈ ks then ks else ks ++ [t.name]) []

/-- `in_degree[dependent] -= 1; if in_degree[dependent] == 0: queue.append`
(lines 57-60), threading the in-degree map and the queue. -/
def decStep (st : (String → Int) × List String) (dep : String) :
    (String → Int) × List String :=
  let v := st.1 dep - 1
  (Function.update st.1 dep v, if v = 0 then st.2 ++ [dep] else st.2)

/-- Processing of one task of the current level (lines 54-60). -/
def processTask (adj : String → List String) (st : (String → Int) × List String)
    (n : String) : (String → Int) × List String :=
  (adj n).foldl decStep st

/-- Processing of one whole level: the queue was cleared (line 51), then
every task of the level is processed. -/
def processLevel (adj : String → List String) (level : List String)
    (deg : String → Int) : (String → Int) × List String :=
  level.foldl (processTask adj) (deg, [])

/-- The `while queue:` loop (lines 47-60), with explicit fuel. -/
def sortLoop (adj : String → List String) :
    Nat → (String → Int) → List String → List (List String) → Nat →
    List (List String) × Nat
  | _, _, [], levels, processed => (levels, processed)
  | 0, _, _ :: _, levels, processed => (levels, processed)
  | fuel + 1, deg, q, levels, processed =>
    let st := processLevel adj q deg
    sortLoop adj fuel st.1 st.2 (levels ++ [q]) (processed + q.length)

/-- `DAGExecutor.topological_sort` (lines 12-66). -/
def topological_sort (tasks : List Task) : Except SortError (List (List String)) :=
  match findMissing tasks with
  | some (t, d) => .error (.unknownDependency t d)
  | none =>
    let deg := inDeg0 tasks
    let queue := (dictKeys tasks).filter (fun n => deg n = 0)
    let out := sortLoop (adjacency tasks) (tasks.length + 1) deg queue [] 0
    if out.2 ≠ tasks.length then .error .cycle
    else .ok out.1

/-- The dependency relation of a task list: `DependsOn tasks a b` iff some
task named `a` lists `b` among its dependencies. -/
def DependsOn (tasks : List Task) (a b : String) : Prop :=
  ∃ t ∈ tasks, t.name = a ∧ b ∈ t.dependencies

/-- The dependency graph contains a cycle: some name depends transitively
on itself. -/
def HasCycle (tasks : List Task) : Prop :=
  ∃ n, Relation.TransGen (DependsOn tasks) n n

/-! ## Variable interpolation (`orbit/services/variable_service.py`)

`interpolate_variables` finds every `${scope:key}` occurrence with
`re.findall(r'\$\{([^:]+):([^}]+)\}', text)` and, for each resolvable
reference, replaces all occurrences of the placeholder with
`str.replace`; unresolvable references leave the text untouched (only a
warning is logged).  The regex scan is reimplemented character by
character: at each position a match attempt takes the maximal run of
non-`:` characters after `${`, requires `:`, takes the maximal run of
non-`}` characters, and requires `}` (both runs non-empty, exactly the
backtracking-free behaviour of the pattern); on failure the scan
advances one character.  The four scope lookups (workflow variable,
workflow secret with decryption, global variable, global secret) are
abstracted into `resolve : scope → key → Option String`, `none` covering
a missing binding, a missing `workflow_id` and a decryption failure
alike. -/

def lbrace : Char := Char.ofNat 123

def rbrace : Char := Char.ofNat 125

/-- One match attempt of `\$\{([^:]+):([^}]+)\}` at the head of the
input; returns the two groups and the rest of the input after the
match. -/
def scanMatch : List Char → Option (String × String × List Char)
  | '$' :: c :: r =>
    if c = lbrace then
      let t := r.takeWhile (fun ch => ¬ ch = ':')
      match r.dropWhile (fun ch => ¬ ch = ':') with
      | ':' :: r2 =>
        if t.isEmpty then none
        else
          let k := r2.takeWhile (fun ch => ¬ ch = rbrace)
          match r2.dropWhile (fun ch => ¬ ch = rbrace) with
          | c2 :: r3 =>
            if c2 = rbrace ∧ ¬ k.isEmpty then some (t.asString, k.asString, r3)
            else none
          | [] => none
      | _ => none
    else none
  | _ => none

/-- `re.findall` for the placeholder pattern: scan left to right,
non-overlapping.  Every step consumes at least one character, so
`fuel = length` suffices (`findAllAux_adequate` below). -/
def findAllAux : Nat → List Char → List (String × String)
  | 0, _ => []
  | _ + 1, [] => []
  | fuel + 1, c :: cs =>
    match scanMatch (c :: cs) with
    | some (t, k, rest) => (t, k) :: findAllAux fuel rest
    | none => findAllAux fuel cs

def findAllRefs (text : String) : List (String × String) :=
  findAllAux text.toList.length text.toList

/-- The placeholder literal `${scope:key}` rebuilt from the two groups
(line 206 of the source). -/
def placeholder (scope key : String) : String :=
  "$" ++ String.singleton lbrace ++ scope ++ ":" ++ key ++ String.singleton rbrace

/-- Python `str.replace`: replace every non-overlapping occurrence of
`old`, scanning left to right.  Every step consumes at least one
character (`old` is never empty at the call site), so `fuel = length`
suffices. -/
def replaceAllAux (old new : List Char) : Nat → List Char → List Char
  | 0, s => s
  | fuel + 1, s =>
    if ¬ old.isEmpty ∧ old.isPrefixOf s then
      new ++ replaceAllAux old new fuel (s.drop old.length)
    else
      match s with
      | [] => []
      | c :: cs => c :: replaceAllAux old new fuel cs

def replaceAll (s old new : String) : String :=
  ⟨replaceAllAux old.toList new.toList s.toList.length s.toList⟩

/-- `VariableService.interpolate_variables` (lines 157-213). -/
def interpolate_variables (resolve : String → String → Option String)
    (text : String) : String :=
  (findAllRefs text).foldl
    (fun result tk =>
      match resolve tk.1 tk.2 with
      | some value => replaceAll result (placeholder tk.1 tk.2) value
      | none => result)
    text

/-- A JSON-ish Python value tree as handled by `interpolate_dict`:
strings, nested dicts, lists, and anything else (numbers, booleans,
`None`, …) which the source passes through untouched. -/
inductive PyVal where
  | str (s : String)
  | dict (kvs : List (String × PyVal))
  | list (items : List PyVal)
  | atom (tag : Int)

mutual

/-- `VariableService.interpolate_dict` (lines 215-244): string values are
interpolated, dict values recursed into, list items interpolated **only
when they are strings** (any other item is returned unchanged), and all
other values returned unchanged. -/
def interpolate_dict (resolve : String → String → Option String) :
    List (String × PyVal) → List (String × PyVal)
  | [] => []
  | (key, value) :: rest =>
    (key, interpolate_entry resolve value) :: interpolate_dict resolve rest

/-- Treatment of one dict value by `interpolate_dict`. -/
def interpolate_entry (resolve : String → String → Option String) :
    PyVal → PyVal
  | .str s => .str (interpolate_variables resolve s)
  | .dict kvs => .dict (interpolate_dict resolve kvs)
  | .list items => .list (interpolate_items resolve items)
  | .atom t => .atom t

/-- The list comprehension of lines 235-240: only string items are
interpolated. -/
def interpolate_items (resolve : String → String → Option String) :
    List PyVal → List PyVal
  | [] => []
  | .str s :: rest =>
    .str (interpolate_variables resolve s) :: interpolate_items resolve rest
  | item :: rest => item :: interpolate_items resolve rest

end

/-! ### Segmented texts

To state what interpolation does on a text that mixes resolvable and
unresolvable references, a text is presented as a list of segments:
literal pieces and `$\x7bscope:key\x7d` placeholders.  `renderSegs`
flattens the segments back into the concrete string handed to
`interpolate_variables`; `Seg.wf` is the sanity condition under which
the segments are exactly what the regex scan and `str.replace` see:
literal pieces (and substituted values) do not contain the `$` sigil,
and the two groups have the shape `[^:$]+` / `[^}$]+` the pattern
produces. -/

/-- A segment of an interpolation input: a literal piece or one
placeholder. -/
inductive Seg where
  | lit (s : String)
  | ref (scope key : String)

/-- The characters of one segment. -/
def Seg.chars : Seg → List Char
  | .lit s => s.toList
  | .ref a b => (placeholder a b).toList

/-- The characters of a segment list. -/
def segsChars (segs : List Seg) : List Char :=
  (segs.map Seg.chars).flatten

/-- The concrete text of a segment list. -/
def renderSegs (segs : List Seg) : String :=
  ⟨segsChars segs⟩

/-- Sanity of one segment: a literal is `$`-free; a placeholder has a
non-empty scope without `:` or `$` and a non-empty key without `\x7d`
or `$`. -/
def Seg.wf : Seg → Bool
  | .lit s => decide ('$' ∉ s.toList)
  | .ref a b => decide (¬ a.toList = [] ∧ ':' ∉ a.toList ∧ '$' ∉ a.toList ∧
      ¬ b.toList = [] ∧ rbrace ∉ b.toList ∧ '$' ∉ b.toList)

/-- The references of a segment list, in order: what `findAllRefs`
returns on the rendered text (`findAllRefs_segs`). -/
def refsOf (segs : List Seg) : List (String × String) :=
  segs.filterMap (fun sg => match sg with
    | Seg.ref a b => some (a, b)
    | _ => none)

/-- One segment after interpolation: a resolvable placeholder becomes
its value, an unresolvable one is left unchanged, and so is a
literal. -/
def substSeg (resolve : String → String → Option String) : Seg → Seg
  | .ref a b =>
    match resolve a b with
    | some v => .lit v
    | none => .ref a b
  | sg => sg

/-- The effect of one resolvable step of the fold on the segments:
every placeholder equal to the replaced one becomes the value
(`str.replace` replaces all occurrences). -/
def substOne (a b v : String) (segs : List Seg) : List Seg :=
  segs.map (fun sg => match sg with
    | Seg.ref c d => if c = a ∧ d = b then Seg.lit v else Seg.ref c d
    | sg => sg)

/-- An environment resolving only `$\x7bglobal:x\x7d` (to `"v"`),
leaving every other reference unresolvable. -/
def c9resolveMixed : String → String → Option String :=
  fun scope key => if scope = "global" ∧ key = "x" then some "v" else none

/-- A mixed text: one resolvable and one unresolvable placeholder
between literal pieces. -/
def c9segs : List Seg :=
  [Seg.lit "a=", Seg.ref "global" "x", Seg.lit " b=", Seg.ref "global" "y"]

/-! ## Task runner (`orbit/services/task_runner.py`)

`TaskRunner.execute_workflow` marks the workflow `running`, computes the
layers with `DAGExecutor.topological_sort`, then runs one layer at a
time; before each layer it re-reads the persisted workflow status
(`session.refresh`) and returns early **only** when that status is
`"paused"` (lines 66-78).  A task raising after its retry budget is
exhausted propagates out of `asyncio.gather`; the `except` block then
marks the workflow `failed` and no further layer is started; `gather`
does not cancel the sibling coroutines of the layer, so every task of
the layer still runs to its own completion.

The embedding: the action handler of a task (`_execute_action` together
with the optional `asyncio.wait_for` timeout) is modelled by
`run : Nat → Outcome` giving the outcome of attempt `n`; the persisted
status read by `session.refresh` before layer `i` (which an external
`pause_workflow`/`cancel_workflow` call may have changed) is modelled by
`obs : Nat → String`.  Websocket broadcasts become an `Event` trace; the
interleaving of the parallel tasks of one layer is abstracted to their
list order, which preserves every per-task event order and the
task-before-workflow failure order. -/

inductive Outcome where
  | ok (result : String)
  | err (msg : String)
  | timeout
deriving DecidableEq, Repr

def Outcome.isOk : Outcome → Bool
  | .ok _ => true
  | _ => false

structure RTask where
  name : String
  dependencies : List String
  retry_policy : RetryPolicy
  run : Nat → Outcome

/-- The projection of a runner task consumed by `topological_sort`. -/
def RTask.toTask (t : RTask) : Task :=
  ⟨t.name, t.dependencies⟩

inductive Event where
  | workflowStatus (status : String)
  | taskRunning (name : String)
  | taskCompleted (name : String) (result : String)
  | taskFailed (name : String) (error : String)
deriving DecidableEq, Repr

/-- The task columns persisted by the retry loop: final `status`, final
`retry_count`, and the stored `result` — the action result on success,
`{"error": …, "attempts": …}` on terminal failure. -/
inductive TaskResult where
  | completedRes (result : String)
  | failedRes (error : String) (attempts : Nat)
deriving DecidableEq, Repr

structure TaskRec where
  name : String
  status : String
  retry_count : Nat
  result : Option TaskResult
deriving DecidableEq, Repr

/-- `TaskRunner._execute_task_with_retry` (lines 128-212) together with
`_execute_task` (lines 214-273): attempt `attempt` publishes `running`,
then on success persists/publishes `completed`; on timeout or error it
retries while `should_retry(attempt)` holds and otherwise persists
`failed` (with the timeout message `"Task timed out"` resp. `str(e)` as
error summary and `attempts = attempt + 1`), publishes `failed` (error
`"timeout"` resp. `str(e)`) and re-raises.  `remaining` is the number of
loop iterations `range(max_retries + 1)` still has; the `0` branch is
the dead code after the loop. -/
def execWithRetry (t : RTask) : Nat → Nat → List Event × TaskRec
  | attempt, 0 => ([], ⟨t.name, "pending", attempt, none⟩)
  | attempt, remaining + 1 =>
    match t.run attempt with
    | .ok r =>
      ([.taskRunning t.name, .taskCompleted t.name r],
       ⟨t.name, "completed", attempt, some (.completedRes r)⟩)
    | .timeout =>
      if t.retry_policy.should_retry attempt then
        let out := execWithRetry t (attempt + 1) remaining
        (.taskRunning t.name :: out.1, out.2)
      else
        ([.taskRunning t.name, .taskFailed t.name "timeout"],
         ⟨t.name, "failed", attempt, some (.failedRes "Task timed out" (attempt + 1))⟩)
    | .err e =>
      if t.retry_policy.should_retry attempt then
        let out := execWithRetry t (attempt + 1) remaining
        (.taskRunning t.name :: out.1, out.2)
      else
        ([.taskRunning t.name, .taskFailed t.name e],
         ⟨t.name, "failed", attempt, some (.failedRes e (attempt + 1))⟩)

def execTask (t : RTask) : List Event × TaskRec :=
  execWithRetry t 0 (t.retry_policy.max_retries + 1)

/-- A task fails terminally iff no attempt within the retry budget
succeeds. -/
def TerminallyFails (t : RTask) : Prop :=
  ∀ n, n ≤ t.retry_policy.max_retries → (t.run n).isOk = false

/-- `asyncio.gather` over one layer: every task of the layer runs to its
own completion. -/
def runLayer (level_tasks : List RTask) : List Event × List TaskRec :=
  let outs := level_tasks.map execTask
  (outs.flatMap Prod.fst, outs.map Prod.snd)

structure WfRun where
  status : String
  events : List Event
  taskRecs : List TaskRec
deriving DecidableEq, Repr

def layerFailed (recs : List TaskRec) : Bool :=
  recs.any (fun r => r.status = "failed")

/-- The layer loop of `execute_workflow` (lines 66-95): refresh status,
return early when `"paused"`, otherwise run the layer; an exception from
the layer marks the workflow `failed`; exhausting the layers marks it
`completed`. -/
def execLayers (obs : Nat → String) (tasks : List RTask) :
    Nat → List (List String) → WfRun → WfRun
  | _, [], st =>
    { st with status := "completed",
              events := st.events ++ [.workflowStatus "completed"] }
  | i, level :: rest, st =>
    let s := obs i
    if s = "paused" then
      { st with status := s, events := st.events ++ [.workflowStatus "paused"] }
    else
      let st1 : WfRun := { st with status := s }
      let level_tasks := tasks.filter (fun t => level.contains t.name)
      let out := runLayer level_tasks
      let st2 : WfRun :=
        { st1 with events := st1.events ++ out.1,
                   taskRecs := st1.taskRecs ++ out.2 }
      if layerFailed out.2 then
        { st2 with status := "failed",
                   events := st2.events ++ [.workflowStatus "failed"] }
      else execLayers obs tasks (i + 1) rest st2

/-- `TaskRunner.execute_workflow` (lines 31-126). -/
def execute_workflow (obs : Nat → String) (tasks : List RTask) : WfRun :=
  let st0 : WfRun := ⟨"running", [.workflowStatus "running"], []⟩
  match topological_sort (tasks.map RTask.toTask) with
  | .error _ =>
    { st0 with status := "failed",
               events := st0.events ++ [.workflowStatus "failed"] }
  | .ok levels => execLayers obs tasks 0 levels st0

/-- The task name an event refers to, if any. -/
def eventTaskName : Event → Option String
  | .workflowStatus _ => none
  | .taskRunning n => some n
  | .taskCompleted n _ => some n
  | .taskFailed n _ => some n

/-! ## Auxiliary notions used by the theorems below -/

/-- `Ready tasks T n`: `n` names a task all of whose dependencies are in
`T` — exactly the tasks whose in-degree has dropped to `0` once the
names of `T` have been processed. -/
def Ready (tasks : List Task) (T : List String) (n : String) : Prop :=
  n ∈ names tasks ∧ ∀ d ∈ depsOf tasks n, d ∈ T

/-- The layer invariant: every dependency of a task of layer `j` lies in
an earlier layer. -/
def Layered (tasks : List Task) (levels : List (List String)) : Prop :=
  ∀ j, (hj : j < levels.length) → ∀ n ∈ levels.get ⟨j, hj⟩,
    ∀ d ∈ depsOf tasks n, d ∈ (levels.take j).flatten

/-- What holds of the loop state when `sortLoop` returns: the processed
count equals the number of emitted names, the emitted names are
pairwise distinct task names arranged in layers, and every task whose
dependencies were all emitted has itself been emitted. -/
def SortLoopPost (tasks : List Task) (out : List (List String) × Nat) : Prop :=
  out.2 = out.1.flatten.length ∧
  out.1.flatten.Nodup ∧
  (∀ n ∈ out.1.flatten, n ∈ names tasks) ∧
  Layered tasks out.1 ∧
  (∀ n, Ready tasks out.1.flatten n → n ∈ out.1.flatten)

/-- The full conclusion of the topological-sort claim, stated for one
task list.  Part 1: the sort reports an unknown dependency exactly when
some task's dependency names no task.  Part 2: with all dependencies
resolvable, it reports a cycle exactly when the dependency graph has
one.  Part 3: on success, every dependency of a task of layer `j` lies
in an earlier layer `k < j`, and every input task name appears in
exactly one layer (the layers being a permutation of the names). -/
def TopoSortSpec (tasks : List Task) : Prop :=
  ((∃ t ∈ tasks, ∃ d ∈ t.dependencies, ¬ d ∈ names tasks) ↔
    ∃ a b, topological_sort tasks = .error (.unknownDependency a b)) ∧
  ((∀ t ∈ tasks, ∀ d ∈ t.dependencies, d ∈ names tasks) →
    (topological_sort tasks = .error .cycle ↔ HasCycle tasks)) ∧
  (∀ levels, topological_sort tasks = .ok levels →
    (∀ j, (hj : j < levels.length) → ∀ n ∈ levels.get ⟨j, hj⟩,
      ∀ d ∈ depsOf tasks n,
        ∃ k, k < j ∧ ∃ hk : k < levels.length, d ∈ levels.get ⟨k, hk⟩) ∧
    (∀ n ∈ names tasks, levels.countP (fun L => L.contains n) = 1) ∧
    levels.flatten.Perm (names tasks))

/-! ## Concrete inputs used by counterexamples and witnesses -/

/-- A checksum stand-in that distinguishes snapshots by workflow name. -/
def ckByName : WfData → String := fun d => d.name

/-- A checksum stand-in that distinguishes snapshots by task names. -/
def ckByTasks : WfData → String := fun d =>
  String.intercalate "," (d.tasks.map VTask.name)

def c6wf1 : VWorkflow := ⟨"a", none, []⟩

def c6wf2 : VWorkflow := ⟨"b", none, []⟩

def c6wf3 : VWorkflow := ⟨"c", none, []⟩

/-- Create an active version of `c6wf1`, then a draft snapshot of
`c6wf2`, then an active version of `c6wf3` — the middle draft makes the
latest version inactive, so the final call deactivates nothing. -/
def c6store : VersionStore :=
  let s1 := (create_version ckByName ⟨[], []⟩ c6wf1 none none none false).1
  let s2 := (create_version ckByName s1 c6wf2 none none none true).1
  (create_version ckByName s2 c6wf3 none none none false).1

def c5task1 : VTask := ⟨"t1", "noop", "", [], none, none⟩

def c5task2 : VTask := ⟨"t2", "noop", "", [], none, none⟩

/-- Version 1 snapshots the workflow while its task list is `[c5task1]`. -/
def c5store : VersionStore :=
  (create_version ckByTasks ⟨[], []⟩ ⟨"w", none, [c5task1]⟩ none none none false).1

/-- The workflow after its task list was edited to `[c5task2]`. -/
def c5wfCur : VWorkflow := ⟨"w", none, [c5task2]⟩

/-- An environment resolving exactly the reference `global:x`. -/
def c9resolve : String → String → Option String := fun scope key =>
  if scope = "global" ∧ key = "x" then some "v" else none

/-- A dict whose only placeholder sits in a dict nested inside a list. -/
def c9data : List (String × PyVal) :=
  [("a", PyVal.list [PyVal.dict [("b", PyVal.str "$\x7bglobal:x\x7d")]])]

/-- Persisted statuses observed before each layer: an external cancel
lands between layer 0 and layer 1. -/
def c3obs : Nat → String := fun i => if i = 0 then "running" else "cancelled"

def noRetry : RetryPolicy := ⟨0, 1, 60, 2, false⟩

def c3taskA : RTask := ⟨"A", [], noRetry, fun _ => .ok "rA"⟩

def c3taskB : RTask := ⟨"B", ["A"], noRetry, fun _ => .ok "rB"⟩

def c2taskA : RTask := ⟨"A", [], noRetry, fun _ => .ok "rA"⟩

def c2taskB : RTask := ⟨"B", ["A"], ⟨1, 1, 60, 2, false⟩, fun _ => .err "boom"⟩

def c2taskC : RTask := ⟨"C", ["B"], noRetry, fun _ => .ok "rC"⟩

def c2tasks : List RTask := [c2taskA, c2taskB, c2taskC]

/-- A two-task chain used to instantiate the topological-sort claim. -/
def c1tasks : List Task := [⟨"A", []⟩, ⟨"B", ["A"]⟩]

/-! # Theorems -/

/-! ## C7 — `paused_at` lifecycle -/

/-- C7: the claim says every transition out of `paused` clears
`paused_at` and that `paused_at ≠ null ↔ status = paused` is preserved
by every controller operation.  The code violates this: cancelling the
paused workflow `⟨"paused", paused_at = some 3⟩` succeeds and leaves
`paused_at` set, so the resulting row has `status = "cancelled"` with a
non-null `paused_at`, violating the invariant (`resume_workflow`, in
contrast, does clear it). -/
theorem C7_cancel_keeps_paused_at :
    cancel_workflow ⟨"paused", some 3⟩ = .ok ⟨"cancelled", some 3⟩ ∧
    ¬ PausedIff ⟨"cancelled", some 3⟩ ∧
    resume_workflow ⟨"paused", some 3⟩ = .ok ⟨"pending", none⟩ := by
  refine ⟨rfl, ?_, rfl⟩
  intro h
  have := h.mp rfl
  simp at this

/-! ## C8 — controller state machine -/

/-- C8 counterexample: the claim (and the spec table) says `pause` on a
`paused` workflow is a no-op returning the workflow unchanged; the code
instead raises `ValueError` because `paused` is not in
`["running", "pending"]` (pause_resume.py line 54), which the
repository's own test (`can_pause` is false for `paused`) confirms. -/
theorem C8_pause_on_paused_is_error :
    pause_workflow ⟨"paused", some 0⟩ 1 =
      .error "Cannot pause workflow in paused state" := by
  rfl

/-- C8 amended: `pause` applied to a `paused` workflow fails with an
error (it is not a no-op), and `pause`, `resume`, `cancel` applied in a
terminal status (`completed`, `failed`, `cancelled`) all fail with an
error, leaving the workflow unchanged (an error returns no updated
row). -/
theorem C8_state_machine (w : CtlWorkflow) (now : Nat) :
    (w.status = "paused" → isErr (pause_workflow w now) = true) ∧
    (w.status = "completed" ∨ w.status = "failed" ∨ w.status = "cancelled" →
      isErr (pause_workflow w now) = true ∧
      isErr (resume_workflow w) = true ∧
      isErr (cancel_workflow w) = true) := by
  constructor
  · intro h
    simp [pause_workflow, h, isErr]
  · intro h
    rcases h with h | h | h <;>
      simp [pause_workflow, resume_workflow, cancel_workflow, h, isErr]

/-- Witness for `C8_state_machine` at concrete workflows. -/
theorem C8_state_machine_witness :
    isErr (pause_workflow ⟨"paused", some 0⟩ 1) = true ∧
    (isErr (pause_workflow ⟨"completed", none⟩ 0) = true ∧
     isErr (resume_workflow ⟨"completed", none⟩) = true ∧
     isErr (cancel_workflow ⟨"completed", none⟩) = true) :=
  ⟨(C8_state_machine ⟨"paused", some 0⟩ 1).1 rfl,
   (C8_state_machine ⟨"completed", none⟩ 0).2 (Or.inl rfl)⟩

/-! ## C4 — backoff delay formula -/

/-- C4 counterexample: the claim states the formula for **every**
attempt `n ≥ 0`, but `calculate_delay` starts with
`if attempt >= self.max_retries: return 0` (retry_policy.py line 35), so
for the valid policy `max_retries = 0, initial_delay = 1, max_delay =
60, multiplier = 2, jitter off` attempt `0` yields `0`, not
`min(1·2⁰, 60) = 1` (the repository's own test
`test_retry_policy_no_retries` asserts this `0`). -/
theorem C4_delay_formula_fails_at_budget :
    ¬ RetryPolicy.calculate_delay ⟨0, 1, 60, 2, false⟩ 0 0 =
        min ((1 : ℚ) * 2 ^ 0) 60 := by
  norm_num [RetryPolicy.calculate_delay]

/-- C4 amended: with jitter disabled and a valid configuration
(`initial_delay > 0`, `max_delay > 0`, `backoff_multiplier > 1`), for
every attempt `n < max_retries` (the only attempts for which the runner
calls `calculate_delay`, since it first checks `should_retry(n)`)
`calculate_delay(n) = min(initial_delay · multiplier^n, max_delay)` and
the delay is monotonically non-decreasing on those attempts; for
`n ≥ max_retries` the function returns `0`. -/
theorem C4_delay_formula (p : RetryPolicy) (u : ℚ) (hj : p.jitter = false)
    (h1 : 0 < p.initial_delay) (h2 : 0 < p.max_delay)
    (h3 : 1 < p.backoff_multiplier) :
    (∀ n, n < p.max_retries →
      p.calculate_delay n u =
        min (p.initial_delay * p.backoff_multiplier ^ n) p.max_delay) ∧
    (∀ m n, m ≤ n → n < p.max_retries →
      p.calculate_delay m u ≤ p.calculate_delay n u) ∧
    (∀ n, p.max_retries ≤ n → p.calculate_delay n u = 0) := by
  have hm0 : (0 : ℚ) < p.backoff_multiplier := lt_trans one_pos h3
  have hval : ∀ n, n < p.max_retries →
      p.calculate_delay n u =
        min (p.initial_delay * p.backoff_multiplier ^ n) p.max_delay := by
    intro n hn
    have hcond : ¬ p.max_retries ≤ n := by omega
    have hpos : 0 < min (p.initial_delay * p.backoff_multiplier ^ n) p.max_delay :=
      lt_min (mul_pos h1 (pow_pos hm0 n)) h2
    simp only [RetryPolicy.calculate_delay, hcond, if_false, hj,
      Bool.false_eq_true]
    exact max_eq_right hpos.le
  refine ⟨hval, ?_, ?_⟩
  · intro m n hmn hn
    rw [hval m (lt_of_le_of_lt hmn hn), hval n hn]
    exact min_le_min
      (mul_le_mul_of_nonneg_left (pow_le_pow_right₀ h3.le hmn) h1.le) le_rfl
  · intro n hn
    simp [RetryPolicy.calculate_delay, hn]

/-- Witness for `C4_delay_formula` at a concrete policy. -/
theorem C4_delay_formula_witness :
    (∀ n, n < (RetryPolicy.mk 3 1 60 2 false).max_retries →
      RetryPolicy.calculate_delay ⟨3, 1, 60, 2, false⟩ n 0 =
        min ((RetryPolicy.mk 3 1 60 2 false).initial_delay *
          (RetryPolicy.mk 3 1 60 2 false).backoff_multiplier ^ n)
          (RetryPolicy.mk 3 1 60 2 false).max_delay) ∧
    (∀ m n, m ≤ n → n < (RetryPolicy.mk 3 1 60 2 false).max_retries →
      RetryPolicy.calculate_delay ⟨3, 1, 60, 2, false⟩ m 0 ≤
        RetryPolicy.calculate_delay ⟨3, 1, 60, 2, false⟩ n 0) ∧
    (∀ n, (RetryPolicy.mk 3 1 60 2 false).max_retries ≤ n →
      RetryPolicy.calculate_delay ⟨3, 1, 60, 2, false⟩ n 0 = 0) :=
  C4_delay_formula ⟨3, 1, 60, 2, false⟩ 0 rfl (by norm_num) (by norm_num)
    (by norm_num)

/-! ## C10 — idempotency key derivation -/

/-- `json.dumps(…, sort_keys=True)` is invariant under reordering of a
dict with (necessarily) distinct keys. -/
theorem dumpsSorted_perm (p q : List (String × JVal)) (hpq : p.Perm q)
    (hnd : (p.map Prod.fst).Nodup) : dumpsSorted p = dumpsSorted q := by
  have htrans : ∀ a b c : String × JVal,
      decide (a.1 ≤ b.1) = true → decide (b.1 ≤ c.1) = true →
      decide (a.1 ≤ c.1) = true := by
    intro a b c hab hbc
    simp only [decide_eq_true_eq] at *
    exact le_trans hab hbc
  have htotal : ∀ a b : String × JVal,
      (decide (a.1 ≤ b.1) || decide (b.1 ≤ a.1)) = true := by
    intro a b
    simp only [Bool.or_eq_true, decide_eq_true_eq]
    exact le_total a.1 b.1
  have hlt : ∀ l : List (String × JVal),
      List.Pairwise (fun a b => decide (a.1 ≤ b.1) = true) l →
      (l.map Prod.fst).Nodup →
      List.Sorted (fun a b : String × JVal => a.1 < b.1) l := by
    intro l hle hndl
    have hne : List.Pairwise (fun a b : String × JVal => a.1 ≠ b.1) l :=
      List.pairwise_map.mp hndl
    exact (hle.and hne).imp
      (fun h => lt_of_le_of_ne (by simpa using h.1) h.2)
  have hperm : (p.mergeSort (fun a b => decide (a.1 ≤ b.1))).Perm
      (q.mergeSort (fun a b => decide (a.1 ≤ b.1))) :=
    (List.mergeSort_perm p _).trans (hpq.trans (List.mergeSort_perm q _).symm)
  have hnd1 : ((p.mergeSort (fun a b => decide (a.1 ≤ b.1))).map Prod.fst).Nodup :=
    (((List.mergeSort_perm p _).map Prod.fst).nodup_iff).mpr hnd
  have hnd2 : ((q.mergeSort (fun a b => decide (a.1 ≤ b.1))).map Prod.fst).Nodup :=
    (((List.mergeSort_perm q _).map Prod.fst).nodup_iff).mpr
      (((hpq.map Prod.fst).nodup_iff).mp hnd)
  haveI : IsAntisymm (String × JVal) (fun a b => a.1 < b.1) :=
    ⟨fun _ _ h1 h2 => absurd h2 (lt_asymm h1)⟩
  have heq := List.eq_of_perm_of_sorted hperm
    (hlt _ (List.sorted_mergeSort htrans htotal p) hnd1)
    (hlt _ (List.sorted_mergeSort htrans htotal q) hnd2)
  unfold dumpsSorted
  rw [heq]

/-- C10: `generate_key` omits the payload-hash segment both for a
missing payload and for an empty payload dict (Python `if payload:`
treats `None` and `{}` alike), yielding `workflow_id:task_name`; and it
is deterministic in its inputs: two payloads equal as key-value maps
(permutations of each other, keys distinct) produce the same key, for
every digest function. -/
theorem C10_generate_key (sha16 : String → String) (wf tn : String) :
    generate_key sha16 wf tn none = wf ++ ":" ++ tn ∧
    generate_key sha16 wf tn (some []) = generate_key sha16 wf tn none ∧
    (∀ p q, p.Perm q → (p.map Prod.fst).Nodup →
      generate_key sha16 wf tn (some p) = generate_key sha16 wf tn (some q)) := by
  refine ⟨rfl, rfl, ?_⟩
  intro p q hpq hnd
  cases p with
  | nil =>
    have : q = [] := hpq.symm.eq_nil
    subst this
    rfl
  | cons a p2 =>
    have hq : ¬ q = [] := by
      intro h0
      subst h0
      exact absurd hpq.eq_nil (by simp)
    have hqe : q.isEmpty = false := by
      simpa using hq
    simp only [generate_key, List.isEmpty_cons, hqe, Bool.false_eq_true,
      if_false]
    rw [dumpsSorted_perm (a :: p2) q hpq hnd]

/-- Witness for `C10_generate_key` at a concrete digest function,
workflow id, task name, and payload. -/
theorem C10_generate_key_witness :
    generate_key (fun s => s) "w" "t" none = "w" ++ ":" ++ "t" ∧
    generate_key (fun s => s) "w" "t" (some []) =
      generate_key (fun s => s) "w" "t" none ∧
    generate_key (fun s => s) "w" "t"
        (some [("b", JVal.jint 1), ("a", JVal.jint 2)]) =
      generate_key (fun s => s) "w" "t"
        (some [("a", JVal.jint 2), ("b", JVal.jint 1)]) :=
  ⟨(C10_generate_key (fun s => s) "w" "t").1,
   (C10_generate_key (fun s => s) "w" "t").2.1,
   (C10_generate_key (fun s => s) "w" "t").2.2 _ _ (by decide) (by decide)⟩

/-! ## C5 — rollback does not restore the task list -/

/-- C5: the claim (and §4.7 of the spec, explicitly) requires
`rollback_to_version` to restore the complete task list of the target
version; the code restores only `name` and `description`
(versioning_service.py lines 256-262, with the comment "Task
restoration would require more complex logic").  Evaluated at the
failing input — version 1 snapshotted with task list `[c5task1]`, the
workflow since edited to `[c5task2]`, rollback to version 1 — the
returned workflow still carries `[c5task2]`, the freshly created
version snapshots `[c5task2]` (not the target's `[c5task1]`), while the
`change_summary` and the `rolled_back` change-log row of the claim are
indeed produced. -/
theorem C5_rollback_keeps_current_tasks :
    (c5store.versions.map (fun v => v.workflow_data.tasks)) = [[c5task1]] ∧
    (rollback_to_version ckByTasks c5store c5wfCur 1 none).toOption.map
        (fun r => (r.2.1.tasks, r.2.2.workflow_data.tasks,
                   r.2.2.change_summary,
                   r.1.changelog.map ChangeLogEntry.change_type)) =
      some ([c5task2], [c5task2], some "Rolled back to version 1",
            ["created", "updated", "rolled_back"]) ∧
    ¬ [c5task2] = [c5task1] := by
  refine ⟨by decide, by decide, by decide⟩

/-! ## C6 — at most one active version -/

/-- C6: the claim states at most one stored version per workflow is
active and that creating a non-draft version deactivates any previously
active one.  `create_version` only deactivates the version with the
**highest version number** when that one is active
(versioning_service.py line 129), so after creating active version 1, a
draft version 2, and a non-draft version 3 (checksums all distinct),
versions 1 and 3 are both active. -/
theorem C6_two_active_versions :
    (c6store.versions.map
        (fun v => (v.version_number, v.is_active, v.is_draft))) =
      [(1, true, false), (2, false, true), (3, true, false)] ∧
    activeCount c6store = 2 := by
  refine ⟨by decide, by decide⟩

/-! ## C9 — variable interpolation -/

theorem toList_append (s t : String) : (s ++ t).toList = s.toList ++ t.toList := by
  cases s with
  | mk ls => cases t with
    | mk lt => rfl

theorem asString_toList (s : String) : s.toList.asString = s := rfl

theorem placeholder_chars (a b : String) :
    (placeholder a b).toList =
      '$' :: lbrace :: (a.toList ++ ':' :: (b.toList ++ [rbrace])) := by
  simp only [placeholder, toList_append]
  simp [String.singleton, List.append_assoc]

theorem scanMatch_dollar (c₂ : Char) (r : List Char) :
    scanMatch ('$' :: c₂ :: r) =
      (if c₂ = lbrace then
          let t := r.takeWhile (fun ch => ¬ ch = ':')
          match r.dropWhile (fun ch => ¬ ch = ':') with
          | ':' :: r2 =>
            if t.isEmpty then none
            else
              let k := r2.takeWhile (fun ch => ¬ ch = rbrace)
              match r2.dropWhile (fun ch => ¬ ch = rbrace) with
              | c2 :: r3 =>
                if c2 = rbrace ∧ ¬ k.isEmpty then some (t.asString, k.asString, r3)
                else none
              | [] => none
          | _ => none
        else none) := rfl

theorem scanMatch_ne_dollar {c : Char} (h : ¬ c = '$') (cs : List Char) :
    scanMatch (c :: cs) = none := by
  cases cs with
  | nil => simp [scanMatch]
  | cons c2 r => simp [scanMatch, h]

theorem takeWhile_middle {α : Type} (p : α → Bool) :
    ∀ (l : List α) (x : α) (r : List α), (∀ c ∈ l, p c = true) → p x = false →
      (l ++ x :: r).takeWhile p = l ∧ (l ++ x :: r).dropWhile p = x :: r := by
  intro l
  induction l with
  | nil =>
    intro x r _ hx
    simp [List.takeWhile_cons, List.dropWhile_cons, hx]
  | cons c l ih =>
    intro x r hl hx
    have hc := hl c (List.mem_cons_self c l)
    have h2 := ih x r (fun d hd => hl d (List.mem_cons_of_mem _ hd)) hx
    simp [List.takeWhile_cons, List.dropWhile_cons, hc, h2.1, h2.2]

theorem scanMatch_ref (a b : String) (rest : List Char)
    (ha : ¬ a.toList = []) (ha2 : ':' ∉ a.toList)
    (hb : ¬ b.toList = []) (hb2 : rbrace ∉ b.toList) :
    scanMatch ((placeholder a b).toList ++ rest) = some (a, b, rest) := by
  rw [placeholder_chars]
  simp only [List.cons_append]
  rw [scanMatch_dollar, if_pos rfl]
  have hr : (a.toList ++ ':' :: (b.toList ++ [rbrace])) ++ rest =
      a.toList ++ ':' :: (b.toList ++ rbrace :: rest) := by simp
  rw [hr]
  have hcolon : (decide (¬ (':' : Char) = ':')) = false := by decide
  obtain ⟨ht, hd⟩ := takeWhile_middle (fun ch => decide (¬ ch = ':'))
    a.toList ':' (b.toList ++ rbrace :: rest)
    (fun c hc => by simp; exact fun hcc => ha2 (hcc ▸ hc)) hcolon
  rw [ht, hd]
  have hrb : (decide (¬ rbrace = rbrace)) = false := by simp
  obtain ⟨ht2, hd2⟩ := takeWhile_middle (fun ch => decide (¬ ch = rbrace))
    b.toList rbrace rest
    (fun c hc => by simp; exact fun hcc => hb2 (hcc ▸ hc)) hrb
  show (if a.toList.isEmpty then none
    else
      let k := List.takeWhile (fun ch => decide (¬ ch = rbrace)) (b.toList ++ rbrace :: rest)
      match List.dropWhile (fun ch => decide (¬ ch = rbrace)) (b.toList ++ rbrace :: rest) with
      | c2 :: r3 =>
        if c2 = rbrace ∧ ¬ k.isEmpty then some (a.toList.asString, k.asString, r3)
        else none
      | [] => none) = some (a, b, rest)
  rw [ht2, hd2]
  have hae : a.toList.isEmpty = false := by
    cases hx : a.toList with
    | nil => exact absurd hx ha
    | cons y ys => rfl
  have hbe : b.toList.isEmpty = false := by
    cases hx : b.toList with
    | nil => exact absurd hx hb
    | cons y ys => rfl
  rw [if_neg (by rw [hae]; exact Bool.false_ne_true)]
  show (if rbrace = rbrace ∧ ¬ b.toList.isEmpty = true then
      some (a.toList.asString, b.toList.asString, rest) else none) = some (a, b, rest)
  rw [if_pos ⟨rfl, by rw [hbe]; exact Bool.false_ne_true⟩,
    asString_toList, asString_toList]

theorem wf_lit_iff {s : String} : Seg.wf (Seg.lit s) = true ↔ '$' ∉ s.toList := by
  simp [Seg.wf]

theorem wf_ref_iff {a b : String} : Seg.wf (Seg.ref a b) = true ↔
    (¬ a.toList = [] ∧ ':' ∉ a.toList ∧ '$' ∉ a.toList ∧
      ¬ b.toList = [] ∧ rbrace ∉ b.toList ∧ '$' ∉ b.toList) := by
  simp [Seg.wf]

theorem findAllAux_nil : ∀ fuel, findAllAux fuel ([] : List Char) = [] := by
  intro fuel
  cases fuel <;> rfl

theorem findAllAux_skip : ∀ (l r : List Char) (fuel : Nat), '$' ∉ l →
    (l ++ r).length ≤ fuel →
    findAllAux fuel (l ++ r) = findAllAux (fuel - l.length) r := by
  intro l
  induction l with
  | nil => intro r fuel _ _; simp
  | cons c l ih =>
    intro r fuel hdl hlen
    cases fuel with
    | zero => simp at hlen
    | succ f =>
      have hc : ¬ c = '$' := fun hc => hdl (List.mem_cons.mpr (Or.inl hc.symm))
      rw [List.cons_append, findAllAux, scanMatch_ne_dollar hc]
      show findAllAux f (l ++ r) = findAllAux (f + 1 - (l.length + 1)) r
      rw [Nat.succ_sub_succ]
      exact ih r f (fun h => hdl (List.mem_cons_of_mem _ h))
        (by simp only [List.length_append, List.length_cons] at hlen ⊢; omega)

theorem segsChars_cons (sg : Seg) (rest : List Seg) :
    segsChars (sg :: rest) = sg.chars ++ segsChars rest := by
  simp [segsChars]

theorem findAllAux_segs (segs : List Seg) (hwf : ∀ sg ∈ segs, Seg.wf sg = true) :
    ∀ fuel, (segsChars segs).length ≤ fuel →
      findAllAux fuel (segsChars segs) = refsOf segs := by
  induction segs with
  | nil =>
    intro fuel _
    show findAllAux fuel [] = refsOf []
    rw [findAllAux_nil]
    rfl
  | cons sg rest ih =>
    intro fuel hlen
    have hwfr : ∀ t ∈ rest, Seg.wf t = true :=
      fun t ht => hwf t (List.mem_cons_of_mem _ ht)
    rw [segsChars_cons] at hlen ⊢
    cases sg with
    | lit s =>
      have hs : '$' ∉ s.toList := wf_lit_iff.mp (hwf _ (List.mem_cons_self _ _))
      simp only [Seg.chars] at hlen
      show findAllAux fuel (s.toList ++ segsChars rest) = refsOf (Seg.lit s :: rest)
      rw [findAllAux_skip _ _ _ hs hlen]
      rw [ih hwfr _ (by simp only [List.length_append] at hlen ⊢; omega)]
      simp [refsOf]
    | ref a b =>
      obtain ⟨ha, ha2, _, hb, hb2, _⟩ := wf_ref_iff.mp (hwf _ (List.mem_cons_self _ _))
      simp only [Seg.chars] at hlen
      show findAllAux fuel ((placeholder a b).toList ++ segsChars rest) =
        refsOf (Seg.ref a b :: rest)
      cases fuel with
      | zero =>
        rw [placeholder_chars] at hlen
        simp at hlen
      | succ f =>
        have hsm := scanMatch_ref a b (segsChars rest) ha ha2 hb hb2
        rw [placeholder_chars] at hlen hsm ⊢
        simp only [List.cons_append] at hlen hsm ⊢
        rw [findAllAux, hsm]
        show (a, b) :: findAllAux f (segsChars rest) = refsOf (Seg.ref a b :: rest)
        rw [ih hwfr f (by
          simp only [List.length_append, List.length_cons] at hlen ⊢; omega)]
        simp [refsOf]

theorem findAllRefs_segs (segs : List Seg) (hwf : ∀ sg ∈ segs, Seg.wf sg = true) :
    findAllRefs (renderSegs segs) = refsOf segs := by
  unfold findAllRefs
  exact findAllAux_segs segs hwf _ le_rfl

theorem toList_inj {s t : String} (h : s.toList = t.toList) : s = t := by
  cases s with
  | mk ls => cases t with
    | mk lt =>
      show String.mk ls = String.mk lt
      have : ls = lt := h
      rw [this]

theorem prefix_split_at_stop {α : Type} {x : α} :
    ∀ (l₁ l₂ : List α) {r₁ r₂ : List α}, x ∉ l₁ → x ∉ l₂ →
      (l₁ ++ x :: r₁) <+: (l₂ ++ x :: r₂) → l₁ = l₂ ∧ r₁ <+: r₂ := by
  intro l₁
  induction l₁ with
  | nil =>
    intro l₂ r₁ r₂ h₁ h₂ h
    cases l₂ with
    | nil =>
      simp only [List.nil_append, List.cons_prefix_cons] at h
      exact ⟨rfl, h.2⟩
    | cons y l₂ =>
      simp only [List.nil_append, List.cons_append, List.cons_prefix_cons] at h
      exact absurd (by rw [h.1]; exact List.mem_cons_self y l₂) h₂
  | cons a l₁ ih =>
    intro l₂ r₁ r₂ h₁ h₂ h
    cases l₂ with
    | nil =>
      simp only [List.cons_append, List.nil_append, List.cons_prefix_cons] at h
      exact absurd (by rw [← h.1]; exact List.mem_cons_self a l₁) h₁
    | cons y l₂ =>
      simp only [List.cons_append, List.cons_prefix_cons] at h
      obtain ⟨rfl, h⟩ := h
      have hres := ih l₂ (fun hx => h₁ (List.mem_cons_of_mem _ hx))
        (fun hx => h₂ (List.mem_cons_of_mem _ hx)) h
      exact ⟨by rw [hres.1], hres.2⟩

theorem not_prefixOf_other_ref {a b c d : String} (rest : List Char)
    (hne : ¬ (c = a ∧ d = b)) (ha2 : ':' ∉ a.toList) (hb2 : rbrace ∉ b.toList)
    (hc2 : ':' ∉ c.toList) (hd2 : rbrace ∉ d.toList) :
    (placeholder a b).toList.isPrefixOf ((placeholder c d).toList ++ rest) = false := by
  by_contra hcon
  have hpre : (placeholder a b).toList <+: ((placeholder c d).toList ++ rest) :=
    List.isPrefixOf_iff_prefix.mp (by
      cases hx : (placeholder a b).toList.isPrefixOf ((placeholder c d).toList ++ rest) with
      | false => exact absurd hx hcon
      | true => rfl)
  rw [placeholder_chars, placeholder_chars] at hpre
  simp only [List.cons_append, List.cons_prefix_cons] at hpre
  obtain ⟨-, -, hpre⟩ := hpre
  have hstep : (c.toList ++ ':' :: (d.toList ++ [rbrace])) ++ rest =
      c.toList ++ ':' :: (d.toList ++ rbrace :: rest) := by simp
  rw [hstep] at hpre
  obtain ⟨hac, hpre⟩ := prefix_split_at_stop a.toList c.toList ha2 hc2 hpre
  have hbd : b.toList = d.toList :=
    (prefix_split_at_stop b.toList d.toList hb2 hd2 (by simpa using hpre)).1
  exact hne ⟨(toList_inj hac).symm, (toList_inj hbd).symm⟩

theorem isPrefixOf_append_self : ∀ (p r : List Char), p.isPrefixOf (p ++ r) = true := by
  intro p r
  induction p with
  | nil => simp [List.isPrefixOf]
  | cons c p ih => simp [List.isPrefixOf, ih]

theorem not_prefixOf_ne_head {c : Char} {t cs : List Char} (h : ¬ c = '$') :
    (('$' :: t).isPrefixOf (c :: cs)) = false := by
  simp [List.isPrefixOf]
  exact fun hc => absurd hc.symm h

theorem prefixOf_nil_eq_false {old : List Char} (h : ¬ old = []) :
    old.isPrefixOf ([] : List Char) = false := by
  cases old with
  | nil => exact absurd rfl h
  | cons c cs => rfl

theorem replaceAllAux_nil (old new : List Char) (h : ¬ old = []) :
    ∀ fuel, replaceAllAux old new fuel [] = [] := by
  intro fuel
  cases fuel with
  | zero => rfl
  | succ f =>
    rw [replaceAllAux, if_neg (by
      rw [prefixOf_nil_eq_false h]
      exact fun hc => Bool.false_ne_true hc.2)]

theorem replaceAllAux_succ (old new : List Char) (f : Nat) (s : List Char) :
    replaceAllAux old new (f + 1) s =
      if ¬ old.isEmpty ∧ old.isPrefixOf s then
        new ++ replaceAllAux old new f (s.drop old.length)
      else
        match s with
        | [] => []
        | c :: cs => c :: replaceAllAux old new f cs := rfl

theorem replaceAllAux_skip (t v : List Char) :
    ∀ (l r : List Char) (fuel : Nat), '$' ∉ l → (l ++ r).length ≤ fuel →
      replaceAllAux ('$' :: t) v fuel (l ++ r) =
        l ++ replaceAllAux ('$' :: t) v (fuel - l.length) r := by
  intro l
  induction l with
  | nil => intro r fuel _ _; simp
  | cons c l ih =>
    intro r fuel hdl hlen
    cases fuel with
    | zero => simp at hlen
    | succ f =>
      have hc : ¬ c = '$' := fun hc => hdl (List.mem_cons.mpr (Or.inl hc.symm))
      rw [List.cons_append, replaceAllAux, if_neg (by
        rw [not_prefixOf_ne_head hc]
        exact fun hcon => Bool.false_ne_true hcon.2)]
      show c :: replaceAllAux ('$' :: t) v f (l ++ r) =
        c :: l ++ replaceAllAux ('$' :: t) v (f + 1 - (l.length + 1)) r
      rw [Nat.succ_sub_succ]
      rw [ih r f (fun h => hdl (List.mem_cons_of_mem _ h))
        (by simp only [List.length_append, List.length_cons] at hlen ⊢; omega)]
      rfl

theorem substOne_wf {a b v : String} (hv : '$' ∉ v.toList) {segs : List Seg}
    (hwf : ∀ sg ∈ segs, Seg.wf sg = true) :
    ∀ sg ∈ substOne a b v segs, Seg.wf sg = true := by
  intro sg hsg
  obtain ⟨u, hu, hmap⟩ := List.mem_map.mp hsg
  cases u with
  | lit s => exact hmap ▸ hwf _ hu
  | ref c d =>
    by_cases hcd : c = a ∧ d = b
    · simp only [hcd, and_self, if_pos] at hmap
      rw [← hmap]
      exact wf_lit_iff.mpr hv
    · simp only [if_neg hcd] at hmap
      exact hmap ▸ hwf _ hu

theorem replaceAllAux_segs (a b v : String)
    (ha2 : ':' ∉ a.toList) (hb2 : rbrace ∉ b.toList) :
    ∀ (segs : List Seg), (∀ sg ∈ segs, Seg.wf sg = true) →
    ∀ fuel, (segsChars segs).length ≤ fuel →
      replaceAllAux (placeholder a b).toList v.toList fuel (segsChars segs) =
        segsChars (substOne a b v segs) := by
  intro segs
  induction segs with
  | nil =>
    intro _ fuel _
    exact replaceAllAux_nil _ _ (by rw [placeholder_chars]; exact List.cons_ne_nil _ _) fuel
  | cons sg rest ih =>
    intro hwf fuel hlen
    have hwfr : ∀ u ∈ rest, Seg.wf u = true :=
      fun u hu => hwf u (List.mem_cons_of_mem _ hu)
    rw [segsChars_cons] at hlen ⊢
    cases sg with
    | lit s =>
      have hs : '$' ∉ s.toList := wf_lit_iff.mp (hwf _ (List.mem_cons_self _ _))
      simp only [Seg.chars] at hlen ⊢
      rw [placeholder_chars]
      rw [replaceAllAux_skip _ _ s.toList (segsChars rest) fuel hs hlen]
      rw [← placeholder_chars]
      rw [ih hwfr _ (by simp only [List.length_append] at hlen ⊢; omega)]
      show s.toList ++ segsChars (substOne a b v rest) =
        segsChars (substOne a b v (Seg.lit s :: rest))
      simp [substOne, segsChars, Seg.chars]
    | ref c d =>
      obtain ⟨hc, hc2, hcd1, hd, hd2, hdd1⟩ :=
        wf_ref_iff.mp (hwf _ (List.mem_cons_self _ _))
      simp only [Seg.chars] at hlen ⊢
      cases fuel with
      | zero =>
        rw [placeholder_chars] at hlen
        simp at hlen
      | succ f =>
        by_cases hcd : c = a ∧ d = b
        · obtain ⟨rfl, rfl⟩ := hcd
          rw [replaceAllAux_succ, if_pos ⟨by
              rw [placeholder_chars]
              simp [List.isEmpty_iff], isPrefixOf_append_self _ _⟩]
          rw [List.drop_left]
          rw [ih hwfr f (by
            rw [placeholder_chars] at hlen
            simp only [List.length_append, List.length_cons] at hlen ⊢
            omega)]
          show v.toList ++ segsChars (substOne c d v rest) =
            segsChars (substOne c d v (Seg.ref c d :: rest))
          simp [substOne, segsChars, Seg.chars]
        · rw [replaceAllAux_succ, if_neg (by
            rw [not_prefixOf_other_ref (segsChars rest) hcd ha2 hb2 hc2 hd2]
            exact fun hcon => Bool.false_ne_true hcon.2)]
          rw [placeholder_chars]
          simp only [List.cons_append]
          show '$' :: replaceAllAux (placeholder a b).toList v.toList f
              ((lbrace :: (c.toList ++ ':' :: (d.toList ++ [rbrace]))) ++ segsChars rest) =
            segsChars (substOne a b v (Seg.ref c d :: rest))
          rw [placeholder_chars]
          rw [replaceAllAux_skip _ _ _ (segsChars rest) f (by
            intro hmem
            simp only [List.mem_cons, List.mem_append, List.mem_singleton] at hmem
            rcases hmem with h1 | h1 | h1 | h1 | h1
            · exact absurd h1.symm (by decide)
            · exact hcd1 h1
            · exact absurd h1.symm (by decide)
            · exact hdd1 h1
            · exact absurd h1.symm (by decide)) (by
            rw [placeholder_chars] at hlen
            simp only [List.length_append, List.length_cons] at hlen ⊢
            omega)]
          rw [← placeholder_chars]
          rw [ih hwfr _ (by
            rw [placeholder_chars] at hlen
            simp only [List.length_append, List.length_cons] at hlen ⊢
            omega)]
          show '$' :: (lbrace :: (c.toList ++ ':' :: (d.toList ++ [rbrace]))) ++
              segsChars (substOne a b v rest) =
            segsChars (substOne a b v (Seg.ref c d :: rest))
          simp only [substOne, List.map_cons, segsChars_cons, if_neg hcd]
          rw [show (Seg.ref c d).chars = '$' :: lbrace ::
            (c.toList ++ ':' :: (d.toList ++ [rbrace])) from placeholder_chars c d]

theorem replaceAll_segs (a b v : String)
    (ha2 : ':' ∉ a.toList) (hb2 : rbrace ∉ b.toList)
    (segs : List Seg) (hwf : ∀ sg ∈ segs, Seg.wf sg = true) :
    replaceAll (renderSegs segs) (placeholder a b) v =
      renderSegs (substOne a b v segs) := by
  unfold replaceAll renderSegs
  exact congrArg String.mk (replaceAllAux_segs a b v ha2 hb2 segs hwf _ le_rfl)

theorem mem_refsOf {a b : String} {segs : List Seg} :
    (a, b) ∈ refsOf segs ↔ Seg.ref a b ∈ segs := by
  constructor
  · intro h
    obtain ⟨sg, hsg, hm⟩ := List.mem_filterMap.mp h
    cases sg with
    | lit s => exact absurd hm (by simp)
    | ref c d =>
      have : c = a ∧ d = b := by
        simpa using hm
      rw [← this.1, ← this.2]
      exact hsg
  · intro h
    exact List.mem_filterMap.mpr ⟨Seg.ref a b, h, rfl⟩

theorem interpSegs (resolve : String → String → Option String)
    (hval : ∀ a b v, resolve a b = some v → '$' ∉ v.toList) :
    ∀ (refs : List (String × String)) (segs : List Seg),
      (∀ sg ∈ segs, Seg.wf sg = true) →
      (∀ tk ∈ refs, ':' ∉ (tk : String × String).1.toList ∧ rbrace ∉ tk.2.toList) →
      refs.foldl (fun result tk =>
        match resolve tk.1 tk.2 with
        | some value => replaceAll result (placeholder tk.1 tk.2) value
        | none => result) (renderSegs segs)
      = renderSegs (refs.foldl (fun sg tk =>
          match resolve tk.1 tk.2 with
          | some v => substOne tk.1 tk.2 v sg
          | none => sg) segs) := by
  intro refs
  induction refs with
  | nil => intro segs _ _; rfl
  | cons tk rest ih =>
    intro segs hwf hgr
    have hgr1 := hgr tk (List.mem_cons_self _ _)
    have hgrr : ∀ u ∈ rest, ':' ∉ (u : String × String).1.toList ∧ rbrace ∉ u.2.toList :=
      fun u hu => hgr u (List.mem_cons_of_mem _ hu)
    simp only [List.foldl_cons]
    cases hres : resolve tk.1 tk.2 with
    | none => exact ih segs hwf hgrr
    | some v =>
      have hih := ih (substOne tk.1 tk.2 v segs)
        (substOne_wf (hval tk.1 tk.2 v hres) hwf) hgrr
      rw [← replaceAll_segs tk.1 tk.2 v hgr1.1 hgr1.2 segs hwf] at hih
      exact hih

theorem foldl_substOne (resolve : String → String → Option String) :
    ∀ (refs : List (String × String)) (segs : List Seg),
      (∀ a b, Seg.ref a b ∈ segs → (resolve a b).isSome = true → (a, b) ∈ refs) →
      refs.foldl (fun sg tk =>
        match resolve tk.1 tk.2 with
        | some v => substOne tk.1 tk.2 v sg
        | none => sg) segs
      = segs.map (substSeg resolve) := by
  intro refs
  induction refs with
  | nil =>
    intro segs hcov
    show segs = segs.map (substSeg resolve)
    have : ∀ sg ∈ segs, substSeg resolve sg = id sg := by
      intro sg hsg
      cases sg with
      | lit s => rfl
      | ref a b =>
        cases hres : resolve a b with
        | none => simp [substSeg, hres]
        | some v =>
          exact absurd (hcov a b hsg (by simp [hres])) (List.not_mem_nil _)
    rw [List.map_congr_left this, List.map_id]
  | cons tk rest ih =>
    intro segs hcov
    simp only [List.foldl_cons]
    cases hres : resolve tk.1 tk.2 with
    | none =>
      exact ih segs (fun a b hm hs => by
        rcases List.mem_cons.mp (hcov a b hm hs) with h1 | h1
        · have ha1 : a = tk.1 := congrArg Prod.fst h1
          have hb1 : b = tk.2 := congrArg Prod.snd h1
          rw [ha1, hb1, hres] at hs
          exact absurd hs (by simp)
        · exact h1)
    | some v =>
      rw [ih (substOne tk.1 tk.2 v segs) (fun a b hm hs => by
        obtain ⟨u, hu, hmap⟩ := List.mem_map.mp hm
        cases u with
        | lit s => exact absurd hmap (by simp)
        | ref c d =>
          have hmap2 : (if c = tk.1 ∧ d = tk.2 then Seg.lit v else Seg.ref c d) =
              Seg.ref a b := hmap
          by_cases hcd : c = tk.1 ∧ d = tk.2
          · rw [if_pos hcd] at hmap2
            exact absurd hmap2 (by simp)
          · rw [if_neg hcd] at hmap2
            have hac : c = a := by injection hmap2
            have hbd : d = b := by
              injection hmap2 with h1 h2
            rcases List.mem_cons.mp
                (hcov a b (by rw [← hac, ← hbd]; exact hu) hs) with h1 | h1
            · exfalso
              apply hcd
              rw [hac, hbd]
              constructor
              · exact congrArg Prod.fst h1
              · exact congrArg Prod.snd h1
            · exact h1)]
      have : ∀ sg ∈ segs,
          substSeg resolve (match sg with
            | Seg.ref c d => if c = tk.1 ∧ d = tk.2 then Seg.lit v else Seg.ref c d
            | sg => sg) = substSeg resolve sg := by
        intro sg hsg
        cases sg with
        | lit s => rfl
        | ref c d =>
          show substSeg resolve (if c = tk.1 ∧ d = tk.2 then Seg.lit v else Seg.ref c d) =
            substSeg resolve (Seg.ref c d)
          by_cases hcd : c = tk.1 ∧ d = tk.2
          · rw [if_pos hcd, hcd.1, hcd.2]
            simp [substSeg, hres]
          · rw [if_neg hcd]
      show (substOne tk.1 tk.2 v segs).map (substSeg resolve) = segs.map (substSeg resolve)
      unfold substOne
      rw [List.map_map]
      exact List.map_congr_left (fun sg hsg => this sg hsg)

theorem interpolate_variables_segs (resolve : String → String → Option String)
    (hval : ∀ a b v, resolve a b = some v → '$' ∉ v.toList)
    (segs : List Seg) (hwf : ∀ sg ∈ segs, Seg.wf sg = true) :
    interpolate_variables resolve (renderSegs segs) =
      renderSegs (segs.map (substSeg resolve)) := by
  unfold interpolate_variables
  rw [findAllRefs_segs segs hwf]
  rw [interpSegs resolve hval (refsOf segs) segs hwf (fun tk htk => by
    obtain ⟨-, h2, -, -, h5, -⟩ := wf_ref_iff.mp (hwf _ (mem_refsOf.mp htk))
    exact ⟨h2, h5⟩)]
  rw [foldl_substOne resolve (refsOf segs) segs
    (fun a b hm _ => mem_refsOf.mpr hm)]

theorem interpolate_variables_skips_unresolved
    (resolve : String → String → Option String) (text : String) :
    interpolate_variables resolve text =
      ((findAllRefs text).filter
        (fun tk => (resolve tk.1 tk.2).isSome)).foldl
        (fun result tk => replaceAll result (placeholder tk.1 tk.2)
          ((resolve tk.1 tk.2).getD "")) text := by
  unfold interpolate_variables
  generalize findAllRefs text = refs
  induction refs generalizing text with
  | nil => rfl
  | cons tk rest ih =>
    rw [List.foldl_cons, List.filter_cons]
    cases hres : resolve tk.1 tk.2 with
    | none =>
      rw [show (match (none : Option String) with
        | some value => replaceAll text (placeholder tk.1 tk.2) value
        | none => text) = text from rfl]
      simp only [hres, Option.isSome_none]
      exact ih text
    | some v =>
      simp only [hres, Option.isSome_some, if_pos]
      rw [List.foldl_cons, hres]
      rw [show (Option.getD (some v) "") = v from rfl]
      exact ih (replaceAll text (placeholder tk.1 tk.2) v)

theorem interpolate_dict_eq_map (resolve : String → String → Option String) :
    ∀ kvs, interpolate_dict resolve kvs =
      kvs.map (fun kv => (kv.1, interpolate_entry resolve kv.2))
  | [] => rfl
  | (k, v) :: rest => by
    rw [interpolate_dict, List.map_cons, interpolate_dict_eq_map resolve rest]

/-- A text none of whose references resolve is returned unchanged. -/
theorem interpolate_variables_unresolved
    (resolve : String → String → Option String) (text : String)
    (h : ∀ tk ∈ findAllRefs text, resolve tk.1 tk.2 = none) :
    interpolate_variables resolve text = text := by
  unfold interpolate_variables
  have hgen : ∀ (refs : List (String × String)) (acc : String),
      (∀ tk ∈ refs, resolve tk.1 tk.2 = none) →
      refs.foldl (fun result tk =>
        match resolve tk.1 tk.2 with
        | some value => replaceAll result (placeholder tk.1 tk.2) value
        | none => result) acc = acc := by
    intro refs
    induction refs with
    | nil => intro acc _; rfl
    | cons tk rest ih =>
      intro acc hall
      have h0 := hall tk (List.mem_cons_self _ _)
      simp only [List.foldl_cons, h0]
      exact ih acc (fun u hu => hall u (List.mem_cons_of_mem _ hu))
  exact hgen _ text h

mutual

/-- If no reference resolves at all, `interpolate_dict` is the
identity. -/
theorem interpolate_dict_unresolved (resolve : String → String → Option String)
    (h : ∀ a b, resolve a b = none) :
    ∀ kvs, interpolate_dict resolve kvs = kvs
  | [] => rfl
  | (k, v) :: rest => by
    rw [interpolate_dict, interpolate_entry_unresolved resolve h v,
      interpolate_dict_unresolved resolve h rest]

/-- If no reference resolves at all, `interpolate_entry` is the
identity. -/
theorem interpolate_entry_unresolved (resolve : String → String → Option String)
    (h : ∀ a b, resolve a b = none) :
    ∀ v, interpolate_entry resolve v = v
  | .str s => by
    rw [interpolate_entry,
      interpolate_variables_unresolved resolve s (fun tk _ => h tk.1 tk.2)]
  | .dict kvs => by
    rw [interpolate_entry, interpolate_dict_unresolved resolve h kvs]
  | .list items => by
    rw [interpolate_entry, interpolate_items_unresolved resolve h items]
  | .atom t => rfl

/-- If no reference resolves at all, `interpolate_items` is the
identity. -/
theorem interpolate_items_unresolved (resolve : String → String → Option String)
    (h : ∀ a b, resolve a b = none) :
    ∀ items, interpolate_items resolve items = items
  | [] => rfl
  | .str s :: rest => by
    rw [interpolate_items,
      interpolate_variables_unresolved resolve s (fun tk _ => h tk.1 tk.2),
      interpolate_items_unresolved resolve h rest]
  | .dict kvs :: rest => by
    rw [interpolate_items, interpolate_items_unresolved resolve h rest]
    all_goals exact fun s hs => PyVal.noConfusion hs
  | .list items :: rest => by
    rw [interpolate_items, interpolate_items_unresolved resolve h rest]
    all_goals exact fun s hs => PyVal.noConfusion hs
  | .atom t :: rest => by
    rw [interpolate_items, interpolate_items_unresolved resolve h rest]
    all_goals exact fun s hs => PyVal.noConfusion hs

end

/-- `interpolate_dict` treats list items by interpolating exactly the
string items and passing every other item through unchanged. -/
theorem interpolate_items_eq_map (resolve : String → String → Option String) :
    ∀ items, interpolate_items resolve items = items.map (fun v =>
      match v with
      | PyVal.str s => PyVal.str (interpolate_variables resolve s)
      | v => v)
  | [] => rfl
  | .str s :: rest => by
    rw [interpolate_items, List.map_cons, interpolate_items_eq_map resolve rest]
  | .dict kvs :: rest => by
    rw [interpolate_items, List.map_cons, interpolate_items_eq_map resolve rest]
    all_goals exact fun s hs => PyVal.noConfusion hs
  | .list items :: rest => by
    rw [interpolate_items, List.map_cons, interpolate_items_eq_map resolve rest]
    all_goals exact fun s hs => PyVal.noConfusion hs
  | .atom t :: rest => by
    rw [interpolate_items, List.map_cons, interpolate_items_eq_map resolve rest]
    all_goals exact fun s hs => PyVal.noConfusion hs

/-- C9 counterexample: the claim says interpolation recurses through
**every** map, sequence and string of the value tree.  In the dict
`c9data = {"a": [{"b": "${global:x}"}]}` the placeholder resolves at
string level (second conjunct), yet `interpolate_dict` returns the tree
unchanged, because the list comprehension of lines 235-240 interpolates
only string items and passes the nested dict through untouched. -/
theorem C9_no_recursion_into_list_dicts :
    interpolate_dict c9resolve c9data = c9data ∧
    interpolate_variables c9resolve "$\x7bglobal:x\x7d" = "v" := by
  constructor
  · rfl
  · decide

/-- C9 amended: on a well-formed segmented text — literal pieces and
substituted values free of the `$` sigil, regex-shaped groups — every
resolvable placeholder is replaced by its value and every placeholder
whose reference cannot be resolved is left unchanged, also when the
same text mixes resolvable and unresolvable references; on any text the
fold simply skips unresolvable references (interpolation never raises,
the embedding being total); every map value is interpolated with its
key kept, string values through `interpolate_variables`, nested maps by
recursion; and within sequences exactly the string items are
interpolated, any other item (including nested maps and sequences)
passing through unchanged. -/
theorem C9_interpolation (resolve : String → String → Option String) :
    (∀ segs, (∀ sg ∈ segs, Seg.wf sg = true) →
      (∀ a b v, resolve a b = some v → '$' ∉ v.toList) →
      interpolate_variables resolve (renderSegs segs) =
        renderSegs (segs.map (substSeg resolve))) ∧
    (∀ text, interpolate_variables resolve text =
      ((findAllRefs text).filter (fun tk => (resolve tk.1 tk.2).isSome)).foldl
        (fun result tk => replaceAll result (placeholder tk.1 tk.2)
          ((resolve tk.1 tk.2).getD "")) text) ∧
    (∀ kvs, interpolate_dict resolve kvs =
      kvs.map (fun kv => (kv.1, interpolate_entry resolve kv.2))) ∧
    (∀ s, interpolate_entry resolve (PyVal.str s) =
      PyVal.str (interpolate_variables resolve s)) ∧
    (∀ kvs, interpolate_entry resolve (PyVal.dict kvs) =
      PyVal.dict (interpolate_dict resolve kvs)) ∧
    (∀ items, interpolate_items resolve items = items.map (fun v =>
      match v with
      | PyVal.str s => PyVal.str (interpolate_variables resolve s)
      | v => v)) :=
  ⟨fun segs hwf hval => interpolate_variables_segs resolve hval segs hwf,
   interpolate_variables_skips_unresolved resolve,
   interpolate_dict_eq_map resolve,
   fun _ => rfl,
   fun _ => rfl,
   interpolate_items_eq_map resolve⟩

/-- Witness for `C9_interpolation` on a mixed text: `global:x` resolves
to `v`, `global:y` resolves to nothing; the resolvable placeholder is
substituted, the unresolvable one survives verbatim, both at string
level and inside a nested map. -/
theorem C9_interpolation_witness :
    interpolate_variables c9resolveMixed "a=$\x7bglobal:x\x7d b=$\x7bglobal:y\x7d" =
      "a=v b=$\x7bglobal:y\x7d" ∧
    interpolate_dict c9resolveMixed
        [("outer", PyVal.dict [("inner", PyVal.str "$\x7bglobal:x\x7d")])] =
      [("outer", PyVal.dict [("inner", PyVal.str "v")])] := by
  constructor
  · have h := (C9_interpolation c9resolveMixed).1 c9segs (by decide)
      (fun a b v hv => by
        by_cases hab : a = "global" ∧ b = "x"
        · have hsome : some "v" = some v := by
            rw [← hv]
            simp [c9resolveMixed, hab]
          have hveq : v = "v" := by
            injection hsome with h1
            exact h1.symm
          rw [hveq]
          decide
        · exact absurd hv (by
            simp only [c9resolveMixed, if_neg hab]
            exact Option.noConfusion))
    rw [show renderSegs c9segs =
      "a=$\x7bglobal:x\x7d b=$\x7bglobal:y\x7d" from by decide] at h
    rw [show renderSegs (c9segs.map (substSeg c9resolveMixed)) =
      "a=v b=$\x7bglobal:y\x7d" from by decide] at h
    exact h
  · have h2 := (C9_interpolation c9resolveMixed).2.2.1
      [("outer", PyVal.dict [("inner", PyVal.str "$\x7bglobal:x\x7d")])]
    rw [h2]
    rfl

/-! ## C3 — pause/cancel observation between layers -/

/-- C3: the claim says the between-layer status check returns early on
`paused` **or** `cancelled`; the code tests only
`workflow.status == "paused"` (task_runner.py line 69).  Evaluated on a
two-layer workflow whose persisted status reads `cancelled` before
layer 1: layer 1's task `B` is still started and the workflow finishes
`completed` (overwriting the cancellation) — while the same run with
`paused` observed before layer 1 does stop, publishes `paused`, and
never starts `B`. -/
theorem C3_cancelled_not_observed :
    c3obs 1 = "cancelled" ∧
    (execute_workflow c3obs [c3taskA, c3taskB]).status = "completed" ∧
    Event.taskRunning "B" ∈ (execute_workflow c3obs [c3taskA, c3taskB]).events ∧
    (execute_workflow (fun i => if i = 0 then "running" else "paused")
        [c3taskA, c3taskB]).status = "paused" ∧
    ¬ Event.taskRunning "B" ∈
        (execute_workflow (fun i => if i = 0 then "running" else "paused")
          [c3taskA, c3taskB]).events := by
  refine ⟨rfl, by decide, by decide, by decide, by decide⟩

/-! ## C1 — the topological sort

The development follows the loop structure of the source: a lemma per
folding level (single in-degree decrement, one task of a level, one
level, the `while` loop), each carrying the loop invariant, and then the
assembly into the claim about `topological_sort`. -/

theorem mem_names_iff {tasks : List Task} {n : String} :
    n ∈ names tasks ↔ ∃ t ∈ tasks, t.name = n := by
  simp [names]

theorem depsOf_spec {tasks : List Task} {n : String} (h : n ∈ names tasks) :
    ∃ t ∈ tasks, t.name = n ∧ depsOf tasks n = t.dependencies := by
  obtain ⟨t, ht, hname⟩ := mem_names_iff.mp h
  have hfind : ∃ u, tasks.find? (fun u => u.name = n) = some u := by
    have : tasks.find? (fun u => u.name = n) ≠ none := by
      intro h0
      exact absurd (by simpa using List.find?_eq_none.mp h0 t ht) (by simp [hname])
    cases hu : tasks.find? (fun u => u.name = n) with
    | none => exact absurd hu this
    | some u => exact ⟨u, rfl⟩
  obtain ⟨u, hu⟩ := hfind
  refine ⟨u, List.mem_of_find?_eq_some hu, ?_, ?_⟩
  · simpa using List.find?_some hu
  · simp [depsOf, hu]

theorem depsOf_not_mem {tasks : List Task} {n : String}
    (h : ¬ n ∈ names tasks) : depsOf tasks n = [] := by
  have : tasks.find? (fun u => u.name = n) = none := by
    rw [List.find?_eq_none]
    intro t ht hname
    exact h (mem_names_iff.mpr ⟨t, ht, by simpa using hname⟩)
  simp [depsOf, this]

theorem mem_names_of_depsOf_ne_nil {tasks : List Task} {n : String}
    (h : ¬ depsOf tasks n = []) : n ∈ names tasks := by
  by_contra hn
  exact h (depsOf_not_mem hn)

theorem depsOf_eq {tasks : List Task} (hnd : (names tasks).Nodup)
    {t : Task} (ht : t ∈ tasks) : depsOf tasks t.name = t.dependencies := by
  obtain ⟨u, hu, huname, hdeps⟩ :=
    @depsOf_spec tasks t.name (mem_names_iff.mpr ⟨t, ht, rfl⟩)
  have : u = t :=
    List.inj_on_of_nodup_map (f := Task.name) hnd hu ht huname
  rw [hdeps, this]

theorem DependsOn_iff {tasks : List Task} (hnd : (names tasks).Nodup)
    {a b : String} :
    DependsOn tasks a b ↔ a ∈ names tasks ∧ b ∈ depsOf tasks a := by
  constructor
  · rintro ⟨t, ht, hname, hb⟩
    subst hname
    exact ⟨mem_names_iff.mpr ⟨t, ht, rfl⟩, by rw [depsOf_eq hnd ht]; exact hb⟩
  · rintro ⟨ha, hb⟩
    obtain ⟨t, ht, hname, hdeps⟩ := depsOf_spec ha
    exact ⟨t, ht, hname, by rwa [← hdeps]⟩

theorem findMissing_eq_none_iff {tasks : List Task} :
    findMissing tasks = none ↔
      ∀ t ∈ tasks, ∀ d ∈ t.dependencies, d ∈ names tasks := by
  unfold findMissing
  rw [List.findSome?_eq_none_iff]
  constructor
  · intro h t ht d hd
    have := h t ht
    rw [Option.map_eq_none', List.find?_eq_none] at this
    have := this d hd
    by_contra hmem
    exact this (by simpa using hmem)
  · intro h t ht
    rw [Option.map_eq_none', List.find?_eq_none]
    intro d hd
    simpa using h t ht d hd

theorem findMissing_eq_some {tasks : List Task} {a b : String}
    (h : findMissing tasks = some (a, b)) :
    ∃ t ∈ tasks, t.name = a ∧ b ∈ t.dependencies ∧ ¬ b ∈ names tasks := by
  unfold findMissing at h
  obtain ⟨t, ht, hmap⟩ := List.exists_of_findSome?_eq_some h
  rw [Option.map_eq_some'] at hmap
  obtain ⟨d, hfind, heq⟩ := hmap
  obtain ⟨ha, hb⟩ := Prod.mk.injEq .. ▸ heq
  refine ⟨t, ht, ha.symm ▸ rfl, ?_, ?_⟩
  · exact hb ▸ List.mem_of_find?_eq_some hfind
  · have := List.find?_some hfind
    subst hb
    intro hmem
    simp only [decide_eq_true_eq] at this
    exact this (by simpa using hmem)

theorem depsOf_subset_names {tasks : List Task}
    (hmiss : ∀ t ∈ tasks, ∀ d ∈ t.dependencies, d ∈ names tasks)
    {n d : String} (hd : d ∈ depsOf tasks n) : d ∈ names tasks := by
  unfold depsOf at hd
  cases hfind : tasks.find? (fun u => u.name = n) with
  | none => rw [hfind] at hd; simp at hd
  | some t =>
    rw [hfind] at hd
    exact hmiss t (List.mem_of_find?_eq_some hfind) d hd

theorem count_map_const {l : List String} {c n : String} :
    (l.map (fun _ => c)).count n = if c = n then l.length else 0 := by
  induction l with
  | nil => simp
  | cons x xs ih =>
    simp only [List.map_cons, List.count_cons, ih]
    by_cases h : c = n <;> simp [h]

theorem inDeg0_not_mem {tasks : List Task} {n : String}
    (h : ¬ n ∈ names tasks) : inDeg0 tasks n = 0 := by
  unfold inDeg0
  norm_cast
  rw [List.count_eq_zero]
  intro hmem
  obtain ⟨t, ht, hblock⟩ := List.mem_flatMap.mp hmem
  obtain ⟨d, _, heq⟩ := List.mem_map.mp hblock
  exact h (mem_names_iff.mpr ⟨t, ht, heq⟩)

theorem inDeg0_eq {tasks : List Task} (hnd : (names tasks).Nodup)
    (n : String) : inDeg0 tasks n = ((depsOf tasks n).length : Int) := by
  induction tasks with
  | nil => simp [inDeg0, depsOf]
  | cons t rest ih =>
    have hnd0 : (∀ x ∈ rest, ¬ x.name = t.name) ∧
        (List.map Task.name rest).Nodup := by
      simpa [names] using hnd
    have hnd2 : (names rest).Nodup := by
      simpa [names] using hnd0.2
    have hnotin : ¬ t.name ∈ names rest := by
      intro hmem
      obtain ⟨u, hu, huname⟩ := mem_names_iff.mp hmem
      exact hnd0.1 u hu huname
    unfold inDeg0
    simp only [List.flatMap_cons, List.count_append]
    by_cases h : t.name = n
    · subst h
      have hrest0 : List.count t.name
          (rest.flatMap fun u => u.dependencies.map (fun _ => u.name)) = 0 := by
        have h0 := @inDeg0_not_mem rest t.name hnotin
        unfold inDeg0 at h0
        exact_mod_cast h0
      have hdeps : depsOf (t :: rest) t.name = t.dependencies := by
        simp [depsOf, List.find?_cons]
      rw [hdeps, count_map_const, hrest0]
      simp
    · have hdeps : depsOf (t :: rest) n = depsOf rest n := by
        simp [depsOf, List.find?_cons, h]
      have ih2 := ih hnd2
      unfold inDeg0 at ih2
      rw [hdeps, count_map_const, if_neg h]
      push_cast
      omega

theorem filterMap_guard_count {l : List String} {x c n : String} :
    (l.filterMap (fun dep => if dep = x then some c else none)).count n =
      if c = n then l.count x else 0 := by
  induction l with
  | nil => simp
  | cons d l ih =>
    by_cases hdx : d = x
    · subst hdx
      simp only [List.filterMap_cons, if_pos rfl, List.count_cons, ih,
        beq_self_eq_true, if_pos]
      by_cases hcn : c = n <;> simp [hcn]
    · simp only [List.filterMap_cons, if_neg hdx, List.count_cons, ih]
      have : (d == x) = false := by simpa using hdx
      simp [this]

theorem adjacency_count_not_mem {tasks : List Task} {x n : String}
    (h : ¬ n ∈ names tasks) : (adjacency tasks x).count n = 0 := by
  rw [List.count_eq_zero]
  intro hmem
  obtain ⟨t, ht, hblock⟩ := List.mem_flatMap.mp hmem
  obtain ⟨d, _, heq⟩ := List.mem_filterMap.mp hblock
  by_cases hdx : d = x
  · rw [if_pos hdx] at heq
    exact h (mem_names_iff.mpr ⟨t, ht, by simpa using heq⟩)
  · rw [if_neg hdx] at heq
    simp at heq

theorem adjacency_count {tasks : List Task} (hnd : (names tasks).Nodup)
    (x n : String) :
    (adjacency tasks x).count n = (depsOf tasks n).count x := by
  induction tasks with
  | nil => simp [adjacency, depsOf]
  | cons t rest ih =>
    have hnd0 : (∀ u ∈ rest, ¬ u.name = t.name) ∧
        (List.map Task.name rest).Nodup := by
      simpa [names] using hnd
    have hnd2 : (names rest).Nodup := by
      simpa [names] using hnd0.2
    have hnotin : ¬ t.name ∈ names rest := by
      intro hmem
      obtain ⟨u, hu, huname⟩ := mem_names_iff.mp hmem
      exact hnd0.1 u hu huname
    unfold adjacency
    simp only [List.flatMap_cons, List.count_append]
    rw [filterMap_guard_count]
    by_cases h : t.name = n
    · subst h
      have hrest0 : (adjacency rest x).count t.name = 0 :=
        adjacency_count_not_mem hnotin
      unfold adjacency at hrest0
      have hdeps : depsOf (t :: rest) t.name = t.dependencies := by
        simp [depsOf, List.find?_cons]
      rw [hdeps, hrest0, if_pos rfl]
      omega
    · have hdeps : depsOf (t :: rest) n = depsOf rest n := by
        simp [depsOf, List.find?_cons, h]
      have ih2 := ih hnd2
      unfold adjacency at ih2
      rw [hdeps, if_neg h, ih2]
      omega

theorem countP_notMem_nil {l : List String} :
    l.countP (fun d => decide (¬ d ∈ ([] : List String))) = l.length := by
  induction l with
  | nil => rfl
  | cons d l ih => simp [List.countP_cons, ih]

theorem countP_notMem_append_singleton {l T : List String} {x : String}
    (hx : ¬ x ∈ T) :
    (l.countP (fun d => decide (¬ d ∈ T ++ [x])) : Int) =
      (l.countP (fun d => decide (¬ d ∈ T)) : Int) - (l.count x : Int) := by
  induction l with
  | nil => simp
  | cons d l ih =>
    simp only [List.countP_cons, List.count_cons]
    by_cases hdx : d = x
    · subst hdx
      have h1 : decide (¬ d ∈ T ++ [d]) = false := by simp
      have h2 : decide (¬ d ∈ T) = true := by simpa using hx
      simp only [h1, h2, beq_self_eq_true, if_pos, if_neg]
      push_cast
      omega
    · have h3 : (d == x) = false := by simpa using hdx
      have h4 : decide (¬ d ∈ T ++ [x]) = decide (¬ d ∈ T) := by
        by_cases hdT : d ∈ T <;> simp [hdT, hdx]
      simp only [h3, h4, if_neg, Bool.false_eq_true]
      by_cases h5 : decide (¬ d ∈ T) = true <;> simp only [h5] <;> push_cast <;>
        omega

theorem countP_notMem_pos {l T : List String} :
    0 < l.countP (fun d => decide (¬ d ∈ T)) ↔ ∃ d ∈ l, ¬ d ∈ T := by
  rw [List.countP_pos_iff]
  simp

theorem countP_notMem_zero {l T : List String} :
    l.countP (fun d => decide (¬ d ∈ T)) = 0 ↔ ∀ d ∈ l, d ∈ T := by
  rw [List.countP_eq_zero]
  simp

theorem Ready.mono {tasks : List Task} {T U : List String} {n : String}
    (h : Ready tasks T n) (hsub : ∀ a ∈ T, a ∈ U) : Ready tasks U n :=
  ⟨h.1, fun d hd => hsub d (h.2 d hd)⟩

theorem ready_countP {tasks : List Task} {T : List String} {n : String} :
    Ready tasks T n ↔ n ∈ names tasks ∧
      (depsOf tasks n).countP (fun d => decide (¬ d ∈ T)) = 0 := by
  unfold Ready
  rw [countP_notMem_zero]

/-- Net effect of the inner decrement loop over an adjacency list `E`
from state `(deg, acc)`: every in-degree drops by its multiplicity in
`E`, and exactly the names whose in-degree passes through `0` are
appended (each at most once). -/
theorem foldl_decStep (E : List String) :
    ∀ (deg : String → Int) (acc : List String),
      (∀ n, (E.foldl decStep (deg, acc)).1 n = deg n - (E.count n : Int)) ∧
      ∃ newly, (E.foldl decStep (deg, acc)).2 = acc ++ newly ∧ newly.Nodup ∧
        ∀ n, n ∈ newly ↔ (1 ≤ deg n ∧ deg n ≤ (E.count n : Int)) := by
  induction E with
  | nil =>
    intro deg acc
    refine ⟨fun n => by simp, [], by simp, List.nodup_nil, fun n => ?_⟩
    simp only [List.not_mem_nil, List.count_nil, Nat.cast_zero, false_iff,
      not_and]
    intro h1
    omega
  | cons e E ih =>
    intro deg acc
    have hstep : decStep (deg, acc) e =
        (Function.update deg e (deg e - 1),
         if deg e - 1 = 0 then acc ++ [e] else acc) := rfl
    rw [List.foldl_cons, hstep]
    obtain ⟨h1, newly, h2, hnewnd, hchar⟩ :=
      ih (Function.update deg e (deg e - 1))
        (if deg e - 1 = 0 then acc ++ [e] else acc)
    constructor
    · intro n
      rw [h1 n, Function.update_apply]
      by_cases hne : n = e
      · subst hne
        have hcount : List.count n (n :: E) = List.count n E + 1 := by
          simp [List.count_cons]
        rw [if_pos rfl, hcount]
        push_cast
        omega
      · have hbeq : (e == n) = false := by
          simpa using fun h => hne h.symm
        have hcount : List.count n (e :: E) = List.count n E := by
          simp [List.count_cons, hbeq]
        rw [if_neg hne, hcount]
    · refine ⟨(if deg e - 1 = 0 then [e] else []) ++ newly, ?_, ?_, ?_⟩
      · rw [h2]
        by_cases hc : deg e - 1 = 0 <;> simp [hc]
      · by_cases hc : deg e - 1 = 0
        · simp only [if_pos hc, List.singleton_append, List.nodup_cons]
          refine ⟨fun hmem => ?_, hnewnd⟩
          have := (hchar e).mp hmem
          rw [Function.update_apply, if_pos rfl] at this
          omega
        · simpa [hc] using hnewnd
      · intro n
        by_cases hne : n = e
        · subst hne
          have hcount : List.count n (n :: E) = List.count n E + 1 := by
            simp [List.count_cons]
          constructor
          · intro hmem
            rcases List.mem_append.mp hmem with hl | hr
            · have hc : deg n - 1 = 0 := by
                by_contra hc0
                rw [if_neg hc0] at hl
                exact absurd hl (List.not_mem_nil n)
              rw [hcount]
              push_cast
              omega
            · have := (hchar n).mp hr
              rw [Function.update_apply, if_pos rfl] at this
              rw [hcount]
              push_cast
              omega
          · rintro ⟨ha, hb⟩
            by_cases hc : deg n - 1 = 0
            · refine List.mem_append.mpr (Or.inl ?_)
              rw [if_pos hc]
              exact List.mem_singleton_self n
            · refine List.mem_append.mpr (Or.inr ((hchar n).mpr ?_))
              rw [Function.update_apply, if_pos rfl]
              rw [hcount] at hb
              push_cast at hb
              constructor <;> omega
        · have hbeq : (e == n) = false := by
            simpa using fun h => hne h.symm
          have hcount : List.count n (e :: E) = List.count n E := by
            simp [List.count_cons, hbeq]
          constructor
          · intro hmem
            rcases List.mem_append.mp hmem with hl | hr
            · exfalso
              by_cases hc : deg e - 1 = 0
              · rw [if_pos hc] at hl
                exact hne (List.mem_singleton.mp hl)
              · rw [if_neg hc] at hl
                exact absurd hl (List.not_mem_nil n)
            · have := (hchar n).mp hr
              rw [Function.update_apply, if_neg hne] at this
              rw [hcount]
              exact this
          · rintro ⟨ha, hb⟩
            refine List.mem_append.mpr (Or.inr ((hchar n).mpr ?_))
            rw [Function.update_apply, if_neg hne]
            rw [hcount] at hb
            exact ⟨ha, hb⟩

/-- Invariant of the `for task_name in current_level` loop: having
processed the prefix `p` of the level `q0` (with `S` the names of
earlier levels), the in-degree of every name counts its dependencies
outside `S ++ p`, and the new queue holds exactly the names that became
ready during `p`. -/
theorem foldl_processTask (tasks : List Task) (hnd : (names tasks).Nodup)
    (S q0 : List String)
    (hSq0 : (S ++ q0).Nodup) :
    ∀ (r p : List String), q0 = p ++ r →
    ∀ (deg : String → Int) (acc : List String),
      (∀ n, deg n =
        ((depsOf tasks n).countP (fun d => decide (¬ d ∈ S ++ p)) : Int)) →
      acc.Nodup →
      (∀ n, n ∈ acc ↔ (Ready tasks (S ++ p) n ∧ ¬ Ready tasks S n)) →
      (∀ n, (r.foldl (processTask (adjacency tasks)) (deg, acc)).1 n =
          ((depsOf tasks n).countP (fun d => decide (¬ d ∈ S ++ q0)) : Int)) ∧
      (r.foldl (processTask (adjacency tasks)) (deg, acc)).2.Nodup ∧
      (∀ n, n ∈ (r.foldl (processTask (adjacency tasks)) (deg, acc)).2 ↔
          (Ready tasks (S ++ q0) n ∧ ¬ Ready tasks S n)) := by
  intro r
  induction r with
  | nil =>
    intro p hq0 deg acc hdeg haccnd hacc
    subst hq0
    simp only [List.foldl_nil, List.append_nil]
    exact ⟨fun n => hdeg n, haccnd, fun n => hacc n⟩
  | cons x r2 ih =>
    intro p hq0 deg acc hdeg haccnd hacc
    have hx_not : ¬ x ∈ S ++ p := by
      have h1 : (S ++ (p ++ x :: r2)).Nodup := by rwa [hq0] at hSq0
      intro hmem
      rcases List.mem_append.mp hmem with hS | hp
      · exact (List.nodup_append.mp h1).2.2 hS (by simp)
      · have h2 := (List.nodup_append.mp h1).2.1
        exact (List.nodup_append.mp h2).2.2 hp (by simp)
    simp only [List.foldl_cons]
    have hPT : processTask (adjacency tasks) (deg, acc) x =
        (adjacency tasks x).foldl decStep (deg, acc) := rfl
    rw [hPT]
    obtain ⟨hd1, newly, hacc1, hnewnd, hchar⟩ :=
      foldl_decStep (adjacency tasks x) deg acc
    have hdeg1 : ∀ n, ((adjacency tasks x).foldl decStep (deg, acc)).1 n =
        ((depsOf tasks n).countP
          (fun d => decide (¬ d ∈ S ++ (p ++ [x]))) : Int) := by
      intro n
      rw [hd1 n, hdeg n, adjacency_count hnd x n, ← List.append_assoc]
      have := countP_notMem_append_singleton
        (l := depsOf tasks n) (T := S ++ p) hx_not
      omega
    have hchar1 : ∀ n, n ∈ ((adjacency tasks x).foldl decStep (deg, acc)).2 ↔
        (Ready tasks (S ++ (p ++ [x])) n ∧ ¬ Ready tasks S n) := by
      intro n
      rw [hacc1, List.mem_append, hacc n, hchar n]
      constructor
      · rintro (⟨hready, hnot⟩ | ⟨ha, hb⟩)
        · refine ⟨hready.mono (fun a haa => ?_), hnot⟩
          rcases List.mem_append.mp haa with h | h
          · exact List.mem_append.mpr (Or.inl h)
          · exact List.mem_append.mpr (Or.inr (List.mem_append.mpr (Or.inl h)))
        · have hpos : 0 < (depsOf tasks n).countP
              (fun d => decide (¬ d ∈ S ++ p)) := by
            have h3 := hdeg n
            omega
          obtain ⟨d0, hd0, hd0n⟩ := countP_notMem_pos.mp hpos
          have hnames : n ∈ names tasks := by
            refine mem_names_of_depsOf_ne_nil (fun h0 => ?_)
            rw [h0] at hd0
            exact absurd hd0 (List.not_mem_nil d0)
          have hnotS : ¬ Ready tasks S n := by
            rintro ⟨_, hall⟩
            exact hd0n (List.mem_append.mpr (Or.inl (hall d0 hd0)))
          refine ⟨⟨hnames, ?_⟩, hnotS⟩
          have hzero : (depsOf tasks n).countP
              (fun d => decide (¬ d ∈ S ++ (p ++ [x]))) = 0 := by
            have h1 := hdeg1 n
            have h2 := hd1 n
            omega
          exact countP_notMem_zero.mp hzero
      · rintro ⟨hready, hnotS⟩
        by_cases hcase : Ready tasks (S ++ p) n
        · exact Or.inl ⟨hcase, hnotS⟩
        · refine Or.inr ?_
          have hnames := hready.1
          have hpos : 0 < (depsOf tasks n).countP
              (fun d => decide (¬ d ∈ S ++ p)) := by
            rcases Nat.eq_zero_or_pos ((depsOf tasks n).countP
              (fun d => decide (¬ d ∈ S ++ p))) with h0 | h0
            · exact absurd ⟨hnames, countP_notMem_zero.mp h0⟩ hcase
            · exact h0
          have hzero : (depsOf tasks n).countP
              (fun d => decide (¬ d ∈ S ++ (p ++ [x]))) = 0 :=
            countP_notMem_zero.mpr hready.2
          have h1 := hdeg1 n
          have h2 := hd1 n
          have h3 := hdeg n
          constructor
          · omega
          · omega
    have hnd1 : ((adjacency tasks x).foldl decStep (deg, acc)).2.Nodup := by
      rw [hacc1, List.nodup_append]
      refine ⟨haccnd, hnewnd, ?_⟩
      intro n hn hn2
      have hr := (hacc n).mp hn
      have h1 := (hchar n).mp hn2
      have hz : (depsOf tasks n).countP
          (fun d => decide (¬ d ∈ S ++ p)) = 0 :=
        countP_notMem_zero.mpr hr.1.2
      have h3 := hdeg n
      omega
    have hq0x : q0 = (p ++ [x]) ++ r2 := by
      rw [hq0]
      simp
    exact ih (p ++ [x]) hq0x _ _ hdeg1 hnd1 hchar1

theorem sortLoop_nil (adj : String → List String) (fuel : Nat)
    (deg : String → Int) (levels : List (List String)) (p : Nat) :
    sortLoop adj fuel deg [] levels p = (levels, p) := by
  cases fuel <;> rfl

theorem sortLoop_cons (adj : String → List String) (fuel : Nat)
    (deg : String → Int) (x : String) (xs : List String)
    (levels : List (List String)) (p : Nat) :
    sortLoop adj (fuel + 1) deg (x :: xs) levels p =
      sortLoop adj fuel (processLevel adj (x :: xs) deg).1
        (processLevel adj (x :: xs) deg).2 (levels ++ [x :: xs])
        (p + (x :: xs).length) := rfl

theorem nodup_length_le {l L : List String} (hnd : l.Nodup)
    (hsub : ∀ x ∈ l, x ∈ L) : l.length ≤ L.length := by
  classical
  have h1 : l.toFinset.card = l.length := List.toFinset_card_of_nodup hnd
  have h2 : l.toFinset ⊆ L.toFinset := fun x hx =>
    List.mem_toFinset.mpr (hsub x (List.mem_toFinset.mp hx))
  have h3 := Finset.card_le_card h2
  have h4 := List.toFinset_card_le L
  omega

theorem names_length {tasks : List Task} : (names tasks).length = tasks.length := by
  simp [names]

theorem mem_flatten_get {levels : List (List String)} {n : String}
    (h : n ∈ levels.flatten) :
    ∃ j, ∃ hj : j < levels.length, n ∈ levels.get ⟨j, hj⟩ := by
  obtain ⟨L, hL, hnL⟩ := List.mem_flatten.mp h
  obtain ⟨⟨j, hj⟩, hget⟩ := List.mem_iff_get.mp hL
  exact ⟨j, hj, by rwa [hget]⟩

theorem flatten_take_subset {levels : List (List String)} {j : Nat} {d : String}
    (h : d ∈ (levels.take j).flatten) : d ∈ levels.flatten := by
  obtain ⟨L, hL, hdL⟩ := List.mem_flatten.mp h
  exact List.mem_flatten.mpr ⟨L, List.mem_of_mem_take hL, hdL⟩

theorem ready_of_mem_flatten {tasks : List Task} {levels : List (List String)}
    (hlay : Layered tasks levels)
    (hnames : ∀ n ∈ levels.flatten, n ∈ names tasks)
    {n : String} (h : n ∈ levels.flatten) :
    Ready tasks levels.flatten n := by
  obtain ⟨j, hj, hget⟩ := mem_flatten_get h
  exact ⟨hnames n h, fun d hd => flatten_take_subset (hlay j hj n hget d hd)⟩

theorem layered_append {tasks : List Task} {levels : List (List String)}
    {q : List String} (hlay : Layered tasks levels)
    (hq : ∀ n ∈ q, ∀ d ∈ depsOf tasks n, d ∈ levels.flatten) :
    Layered tasks (levels ++ [q]) := by
  intro j hj n hn d hd
  by_cases hlt : j < levels.length
  · have hget : (levels ++ [q]).get ⟨j, hj⟩ = levels.get ⟨j, hlt⟩ := by
      simp only [List.get_eq_getElem]
      exact List.getElem_append_left hlt
    rw [hget] at hn
    have := hlay j hlt n hn d hd
    rwa [List.take_append_of_le_length (by omega)]
  · have hjlen : j = levels.length := by
      have := hj
      simp only [List.length_append, List.length_singleton] at this
      omega
    subst hjlen
    have hget : (levels ++ [q]).get ⟨levels.length, hj⟩ = q := by
      simp only [List.get_eq_getElem]
      rw [List.getElem_append_right (le_refl _)]
      simp
    rw [hget] at hn
    rw [List.take_left]
    exact hq n hn d hd

/-- Invariant preservation and termination of the `while queue:` loop:
starting from any state satisfying the loop invariant with enough fuel,
the loop ends in a state satisfying `SortLoopPost`. -/
theorem sortLoop_spec (tasks : List Task) (hnd : (names tasks).Nodup) :
    ∀ (fuel : Nat) (levels : List (List String)) (q : List String)
      (deg : String → Int),
      (levels.flatten ++ q).Nodup →
      (∀ n ∈ levels.flatten ++ q, n ∈ names tasks) →
      Layered tasks levels →
      (∀ n ∈ q, ∀ d ∈ depsOf tasks n, d ∈ levels.flatten) →
      (∀ n, deg n = ((depsOf tasks n).countP
          (fun d => decide (¬ d ∈ levels.flatten)) : Int)) →
      (∀ n, Ready tasks levels.flatten n → n ∈ levels.flatten ++ q) →
      tasks.length ≤ fuel + levels.flatten.length →
      SortLoopPost tasks
        (sortLoop (adjacency tasks) fuel deg q levels levels.flatten.length) := by
  intro fuel
  induction fuel with
  | zero =>
    intro levels q deg hnodup hmem hlay hqdeps hdeg hclosure hfuel
    cases q with
    | nil =>
      rw [sortLoop_nil]
      simp only [List.append_nil] at hnodup hmem hclosure
      exact ⟨rfl, hnodup, hmem, hlay, hclosure⟩
    | cons x xs =>
      exfalso
      have hlen := nodup_length_le hnodup hmem
      rw [names_length] at hlen
      simp only [List.length_append, List.length_cons] at hlen
      omega
  | succ fuel ih =>
    intro levels q deg hnodup hmem hlay hqdeps hdeg hclosure hfuel
    cases q with
    | nil =>
      rw [sortLoop_nil]
      simp only [List.append_nil] at hnodup hmem hclosure
      exact ⟨rfl, hnodup, hmem, hlay, hclosure⟩
    | cons x xs =>
      rw [sortLoop_cons]
      have hPL : processLevel (adjacency tasks) (x :: xs) deg =
          (x :: xs).foldl (processTask (adjacency tasks)) (deg, []) := rfl
      obtain ⟨hdeg2, hnd2, hchar2⟩ :=
        foldl_processTask tasks hnd levels.flatten (x :: xs) hnodup
          (x :: xs) [] rfl deg []
          (by
            intro n
            rw [hdeg n]
            simp)
          List.nodup_nil
          (by
            intro n
            simp only [List.not_mem_nil, List.append_nil, false_iff, not_and]
            intro hr hn
            exact hn hr)
      rw [← hPL] at hdeg2 hnd2 hchar2
      have hfl : (levels ++ [x :: xs]).flatten = levels.flatten ++ x :: xs := by
        simp
      have hready_of_old : ∀ n ∈ levels.flatten ++ x :: xs,
          Ready tasks levels.flatten n := by
        intro n hn
        rcases List.mem_append.mp hn with hS | hq
        · exact ready_of_mem_flatten hlay
            (fun m hm => hmem m (List.mem_append.mpr (Or.inl hm))) hS
        · exact ⟨hmem n hn, hqdeps n hq⟩
      have hlen2 : levels.flatten.length + (x :: xs).length =
          (levels ++ [x :: xs]).flatten.length := by
        rw [hfl, List.length_append]
      rw [hlen2]
      refine ih (levels ++ [x :: xs])
        (processLevel (adjacency tasks) (x :: xs) deg).2
        (processLevel (adjacency tasks) (x :: xs) deg).1
        ?_ ?_ ?_ ?_ ?_ ?_ ?_
      · rw [hfl, List.nodup_append]
        refine ⟨hnodup, hnd2, fun n hn hn2 => ?_⟩
        exact ((hchar2 n).mp hn2).2 (hready_of_old n hn)
      · intro n hn
        rw [hfl] at hn
        rcases List.mem_append.mp hn with h | h
        · exact hmem n h
        · exact (((hchar2 n).mp h).1).1
      · exact layered_append hlay hqdeps
      · intro n hn d hd
        rw [hfl]
        exact (((hchar2 n).mp hn).1).2 d hd
      · intro n
        simp only [hfl]
        exact hdeg2 n
      · intro n hr
        rw [hfl] at hr ⊢
        by_cases hS : Ready tasks levels.flatten n
        · exact List.mem_append.mpr (Or.inl (hclosure n hS))
        · exact List.mem_append.mpr (Or.inr ((hchar2 n).mpr ⟨hr, hS⟩))
      · rw [hfl, List.length_append]
        simp only [List.length_cons] at hfuel ⊢
        omega

theorem dictKeys_eq_names {tasks : List Task} (hnd : (names tasks).Nodup) :
    dictKeys tasks = names tasks := by
  suffices h : ∀ (rest : List Task) (acc : List String),
      (acc ++ names rest).Nodup →
      rest.foldl (fun ks t => if t.name ∈ ks then ks else ks ++ [t.name]) acc =
        acc ++ names rest by
    simpa [dictKeys] using h tasks [] (by simpa using hnd)
  intro rest
  induction rest with
  | nil =>
    intro acc h
    simp [names]
  | cons t rs ih =>
    intro acc h
    have hcons : acc ++ names (t :: rs) = acc ++ t.name :: names rs := by
      simp [names]
    rw [hcons] at h
    have hnotin : ¬ t.name ∈ acc := by
      intro hmem
      exact (List.nodup_append.mp h).2.2 hmem (by simp)
    have h2 : ((acc ++ [t.name]) ++ names rs).Nodup := by
      simpa [List.append_assoc] using h
    simp only [List.foldl_cons, if_neg hnotin]
    rw [ih (acc ++ [t.name]) h2]
    simp [names]

theorem topological_sort_some_eq {tasks : List Task} {a b : String}
    (hfm : findMissing tasks = some (a, b)) :
    topological_sort tasks = .error (.unknownDependency a b) := by
  simp [topological_sort, hfm]

theorem topological_sort_none_eq {tasks : List Task}
    (hfm : findMissing tasks = none) :
    topological_sort tasks =
      (if (sortLoop (adjacency tasks) (tasks.length + 1) (inDeg0 tasks)
            ((dictKeys tasks).filter (fun n => decide (inDeg0 tasks n = 0)))
            [] 0).2 ≠ tasks.length
       then .error .cycle
       else .ok (sortLoop (adjacency tasks) (tasks.length + 1) (inDeg0 tasks)
            ((dictKeys tasks).filter (fun n => decide (inDeg0 tasks n = 0)))
            [] 0).1) := by
  simp only [topological_sort, hfm]

/-- The loop invariant holds at the initial state of
`topological_sort`, so the loop result satisfies the postcondition. -/
theorem topo_post (tasks : List Task) (hnd : (names tasks).Nodup) :
    SortLoopPost tasks
      (sortLoop (adjacency tasks) (tasks.length + 1) (inDeg0 tasks)
        ((dictKeys tasks).filter (fun n => decide (inDeg0 tasks n = 0))) [] 0) := by
  have hkeys := dictKeys_eq_names hnd
  have hdeps_nil : ∀ n, n ∈ (dictKeys tasks).filter
      (fun n => decide (inDeg0 tasks n = 0)) → depsOf tasks n = [] := by
    intro n hn
    have hz : inDeg0 tasks n = 0 := by
      simpa using (List.mem_filter.mp hn).2
    rw [inDeg0_eq hnd n] at hz
    have : (depsOf tasks n).length = 0 := by exact_mod_cast hz
    exact List.length_eq_zero.mp this
  have h := sortLoop_spec tasks hnd (tasks.length + 1) []
    ((dictKeys tasks).filter (fun n => decide (inDeg0 tasks n = 0)))
    (inDeg0 tasks)
    (by
      simp only [List.flatten_nil, List.nil_append]
      exact List.Nodup.filter _ (hkeys ▸ hnd))
    (by
      intro n hn
      simp only [List.flatten_nil, List.nil_append] at hn
      exact hkeys ▸ (List.mem_filter.mp hn).1)
    (by
      intro j hj
      simp at hj)
    (by
      intro n hn d hd
      rw [hdeps_nil n hn] at hd
      exact absurd hd (List.not_mem_nil d))
    (by
      intro n
      simp only [List.flatten_nil]
      rw [inDeg0_eq hnd n]
      have : (depsOf tasks n).countP (fun d => decide (¬ d ∈ ([] : List String)))
          = (depsOf tasks n).length := countP_notMem_nil
      omega)
    (by
      intro n hr
      simp only [List.flatten_nil, List.nil_append]
      have hdnil : depsOf tasks n = [] := by
        rcases hdn : depsOf tasks n with _ | ⟨d, ds⟩
        · rfl
        · have := hr.2 d (by rw [hdn]; simp)
          simp at this
      refine List.mem_filter.mpr ⟨hkeys ▸ hr.1, ?_⟩
      simp [inDeg0_eq hnd n, hdnil])
    (by simp)
  simpa using h

theorem post_perm {tasks : List Task} {out : List (List String) × Nat}
    (hpost : SortLoopPost tasks out) (hlen : out.2 = tasks.length) :
    out.1.flatten.Perm (names tasks) := by
  have hsub := List.subperm_of_subset hpost.2.1 (fun x hx => hpost.2.2.1 x hx)
  refine hsub.perm_of_length_le ?_
  rw [names_length]
  have h1 := hpost.1
  omega

theorem flatten_nodup_layers_disjoint {levels : List (List String)}
    (hnd : levels.flatten.Nodup) {j k : Nat} (hj : j < levels.length)
    (hk : k < levels.length) (hkj : k < j) {n : String}
    (hnj : n ∈ levels.get ⟨j, hj⟩) (hnk : n ∈ levels.get ⟨k, hk⟩) : False := by
  have hsplit : levels = levels.take j ++ levels.get ⟨j, hj⟩ :: levels.drop (j + 1) := by
    conv_lhs => rw [← List.take_append_drop j levels]
    congr 1
    rw [List.get_eq_getElem]
    exact List.drop_eq_getElem_cons hj
  rw [hsplit] at hnd
  simp only [List.flatten_append, List.flatten_cons] at hnd
  have hdisj := (List.nodup_append.mp hnd).2.2
  have hmem_take : n ∈ (levels.take j).flatten := by
    refine List.mem_flatten.mpr ⟨levels.get ⟨k, hk⟩, ?_, hnk⟩
    have hklen : k < (levels.take j).length := by
      simp only [List.length_take]
      omega
    have : (levels.take j).get ⟨k, hklen⟩ = levels.get ⟨k, hk⟩ := by
      simp only [List.get_eq_getElem]
      exact List.getElem_take levels
    rw [← this]
    exact List.get_mem _ _ _
  exact hdisj hmem_take (List.mem_append.mpr (Or.inl hnj))

theorem layered_exists_index {tasks : List Task} {levels : List (List String)}
    (hlay : Layered tasks levels) :
    ∀ j, (hj : j < levels.length) → ∀ n ∈ levels.get ⟨j, hj⟩,
      ∀ d ∈ depsOf tasks n,
        ∃ k, k < j ∧ ∃ hk : k < levels.length, d ∈ levels.get ⟨k, hk⟩ := by
  intro j hj n hn d hd
  obtain ⟨L, hL, hdL⟩ := List.mem_flatten.mp (hlay j hj n hn d hd)
  obtain ⟨⟨k, hk⟩, hget⟩ := List.mem_iff_get.mp hL
  have hk1 : k < j := by
    have := hk
    simp only [List.length_take] at this
    omega
  have hk2 : k < levels.length := by
    have := hk
    simp only [List.length_take] at this
    omega
  refine ⟨k, hk1, hk2, ?_⟩
  have heq : (levels.take j).get ⟨k, hk⟩ = levels.get ⟨k, hk2⟩ := by
    simp only [List.get_eq_getElem]
    exact List.getElem_take levels
  rw [← heq, hget]
  exact hdL

/-- On a complete run (all tasks processed) the dependency graph has no
cycle: along any dependency chain the layer index strictly decreases. -/
theorem post_no_cycle {tasks : List Task} (hnd : (names tasks).Nodup)
    {out : List (List String) × Nat} (hpost : SortLoopPost tasks out)
    (hperm : out.1.flatten.Perm (names tasks)) : ¬ HasCycle tasks := by
  rintro ⟨m, hm⟩
  have hstep : ∀ a b, DependsOn tasks a b →
      ∀ j, (hj : j < out.1.length) → a ∈ out.1.get ⟨j, hj⟩ →
      ∃ k, k < j ∧ ∃ hk : k < out.1.length, b ∈ out.1.get ⟨k, hk⟩ := by
    intro a b hab j hj ha
    have hb : b ∈ depsOf tasks a := ((DependsOn_iff hnd).mp hab).2
    exact layered_exists_index hpost.2.2.2.1 j hj a ha b hb
  have htrans : ∀ a b, Relation.TransGen (DependsOn tasks) a b →
      ∀ j, (hj : j < out.1.length) → a ∈ out.1.get ⟨j, hj⟩ →
      ∃ k, k < j ∧ ∃ hk : k < out.1.length, b ∈ out.1.get ⟨k, hk⟩ := by
    intro a b h
    induction h with
    | single hr => exact hstep _ _ hr
    | tail h1 hr ihab =>
      intro j hj ha
      obtain ⟨k, hkj, hk, hbk⟩ := ihab j hj ha
      obtain ⟨k2, hk2k, hk2, hck2⟩ := hstep _ _ hr k hk hbk
      exact ⟨k2, by omega, hk2, hck2⟩
  have hhead : ∀ a b : String, Relation.TransGen (DependsOn tasks) a b →
      ∃ c, DependsOn tasks a c := by
    intro a b h
    induction h with
    | single hr => exact ⟨_, hr⟩
    | tail _ _ ih => exact ih
  have hmnames : m ∈ names tasks := by
    obtain ⟨c, hc⟩ := hhead m m hm
    obtain ⟨t, ht, hname, _⟩ := hc
    exact mem_names_iff.mpr ⟨t, ht, hname⟩
  have hmflat : m ∈ out.1.flatten := hperm.mem_iff.mpr hmnames
  obtain ⟨j, hj, hget⟩ := mem_flatten_get hmflat
  obtain ⟨k, hkj, hk, hmk⟩ := htrans m m hm j hj hget
  exact flatten_nodup_layers_disjoint hpost.2.1 hj hk hkj hget hmk

theorem layers_countP_one {levels : List (List String)}
    (hnd : levels.flatten.Nodup) {n : String} (hmem : n ∈ levels.flatten) :
    levels.countP (fun L => L.contains n) = 1 := by
  induction levels with
  | nil => simp at hmem
  | cons L rest ih =>
    simp only [List.flatten_cons] at hmem hnd
    rw [List.nodup_append] at hnd
    rcases List.mem_append.mp hmem with hL | hr
    · have hcontains : L.contains n = true := List.elem_iff.mpr hL
      have hcount0 : rest.countP (fun L2 => L2.contains n) = 0 := by
        rw [List.countP_eq_zero]
        intro L2 hL2 hc
        exact hnd.2.2 hL (List.mem_flatten.mpr ⟨L2, hL2, List.elem_iff.mp hc⟩)
      rw [List.countP_cons, hcount0, hcontains]
      simp
    · have hnotL : ¬ n ∈ L := fun hL2 => hnd.2.2 hL2 hr
      have hcontains : L.contains n = false := by
        rcases hc : L.contains n with _ | _
        · rfl
        · exact absurd (List.elem_iff.mp hc) hnotL
      rw [List.countP_cons, ih hnd.2.1 hr, hcontains]
      simp

/-- On an incomplete run (`processed_count != len(tasks)`) the
dependency graph has a cycle: every unprocessed task keeps an
unprocessed dependency, and following such dependencies through the
finite set of unprocessed names must revisit a name. -/
theorem post_cycle {tasks : List Task} (hnd : (names tasks).Nodup)
    (hmiss2 : ∀ n d, d ∈ depsOf tasks n → d ∈ names tasks)
    {out : List (List String) × Nat} (hpost : SortLoopPost tasks out)
    (hlen : ¬ out.2 = tasks.length) : HasCycle tasks := by
  classical
  have hexist : ∃ m, m ∈ names tasks ∧ ¬ m ∈ out.1.flatten := by
    by_contra hc
    push_neg at hc
    have h2 := nodup_length_le hnd hc
    rw [names_length] at h2
    have h3 := nodup_length_le hpost.2.1 hpost.2.2.1
    rw [names_length] at h3
    have h1 := hpost.1
    omega
  obtain ⟨m, hmn, hmS⟩ := hexist
  have hmU : m ∈ (names tasks).filter (fun n => decide (¬ n ∈ out.1.flatten)) :=
    List.mem_filter.mpr ⟨hmn, by simpa using hmS⟩
  have hUstep : ∀ n,
      ∃ d, n ∈ (names tasks).filter (fun n => decide (¬ n ∈ out.1.flatten)) →
        (d ∈ depsOf tasks n ∧
         d ∈ (names tasks).filter (fun n => decide (¬ n ∈ out.1.flatten))) := by
    intro n
    by_cases hn : n ∈ (names tasks).filter (fun n => decide (¬ n ∈ out.1.flatten))
    · have h1 := List.mem_filter.mp hn
      have hnn : n ∈ names tasks := h1.1
      have hnS : ¬ n ∈ out.1.flatten := by simpa using h1.2
      have hnread : ¬ Ready tasks out.1.flatten n :=
        fun hr => hnS (hpost.2.2.2.2 n hr)
      have hne : ¬ ∀ d ∈ depsOf tasks n, d ∈ out.1.flatten :=
        fun hall => hnread ⟨hnn, hall⟩
      push_neg at hne
      obtain ⟨d, hd, hdS⟩ := hne
      exact ⟨d, fun _ =>
        ⟨hd, List.mem_filter.mpr ⟨hmiss2 n d hd, by simpa using hdS⟩⟩⟩
    · exact ⟨n, fun h2 => absurd h2 hn⟩
  choose f hfspec using hUstep
  have hiter : ∀ (k : Nat) (n : String),
      n ∈ (names tasks).filter (fun n => decide (¬ n ∈ out.1.flatten)) →
      f^[k] n ∈ (names tasks).filter (fun n => decide (¬ n ∈ out.1.flatten)) := by
    intro k
    induction k with
    | zero => intro n hn; simpa using hn
    | succ k ihk =>
      intro n hn
      rw [Function.iterate_succ_apply']
      exact (hfspec _ (ihk n hn)).2
  have hchain : ∀ (k : Nat), 1 ≤ k →
      ∀ n ∈ (names tasks).filter (fun n => decide (¬ n ∈ out.1.flatten)),
      Relation.TransGen (DependsOn tasks) n (f^[k] n) := by
    intro k
    induction k with
    | zero => intro h; exact absurd h (by omega)
    | succ k ihk =>
      intro _ n hn
      rcases Nat.eq_zero_or_pos k with h0 | hpos
      · subst h0
        have h1 := hfspec n hn
        have hdep : DependsOn tasks n (f n) :=
          (DependsOn_iff hnd).mpr ⟨(List.mem_filter.mp hn).1, h1.1⟩
        simpa using Relation.TransGen.single hdep
      · have h1 := ihk hpos n hn
        have h2 := hiter k n hn
        have h3 : DependsOn tasks (f^[k] n) (f (f^[k] n)) :=
          (DependsOn_iff hnd).mpr ⟨(List.mem_filter.mp h2).1, (hfspec _ h2).1⟩
        rw [Function.iterate_succ_apply']
        exact h1.tail h3
  have hmaps : ∀ k ∈ Finset.range
      (((names tasks).filter (fun n => decide (¬ n ∈ out.1.flatten))).length + 1),
      f^[k] m ∈
        ((names tasks).filter (fun n => decide (¬ n ∈ out.1.flatten))).toFinset :=
    fun k _ => List.mem_toFinset.mpr (hiter k m hmU)
  have hcard :
      ((names tasks).filter (fun n => decide (¬ n ∈ out.1.flatten))).toFinset.card <
      (Finset.range
        (((names tasks).filter (fun n => decide (¬ n ∈ out.1.flatten))).length + 1)).card := by
    rw [Finset.card_range]
    have := List.toFinset_card_le
      ((names tasks).filter (fun n => decide (¬ n ∈ out.1.flatten)))
    omega
  obtain ⟨i, _, j, _, hij, heq⟩ :=
    Finset.exists_ne_map_eq_of_card_lt_of_maps_to hcard hmaps
  have key : ∀ i j : Nat, i < j → f^[i] m = f^[j] m → HasCycle tasks := by
    intro i j hlt heq2
    have h1 : Relation.TransGen (DependsOn tasks) (f^[i] m)
        (f^[j - i] (f^[i] m)) :=
      hchain (j - i) (by omega) (f^[i] m) (hiter i m hmU)
    rw [← Function.iterate_add_apply] at h1
    have hji : j - i + i = j := by omega
    rw [hji, ← heq2] at h1
    exact ⟨f^[i] m, h1⟩
  rcases Nat.lt_or_ge i j with hlt | hge
  · exact key i j hlt heq
  · exact key j i (by omega) heq.symm

/-- C1: `topological_sort` (i) reports `UnknownDependency` exactly when
some task's dependency names no task of the list, (ii) with all
dependencies resolvable reports `Cycle` exactly when the dependency
graph has a cycle, and (iii) on success returns layers in which every
dependency of a task of layer `j` lies in an earlier layer `k < j` and
every input task name appears in exactly one layer.  The task names are
assumed pairwise distinct, which is the `Task.name` uniqueness
invariant of the data model (and also necessary: `task_map` silently
collapses duplicates). -/
theorem C1_topological_sort (tasks : List Task)
    (hnd : (names tasks).Nodup) : TopoSortSpec tasks := by
  refine ⟨⟨?_, ?_⟩, ?_, ?_⟩
  · rintro ⟨t, ht, d, hd, hmem⟩
    cases hfm : findMissing tasks with
    | none => exact absurd (findMissing_eq_none_iff.mp hfm t ht d hd) hmem
    | some ab =>
      exact ⟨ab.1, ab.2, topological_sort_some_eq (by rw [hfm])⟩
  · rintro ⟨a, b, herr⟩
    cases hfm : findMissing tasks with
    | some ab =>
      obtain ⟨t, ht, hname, hb, hmem⟩ :=
        findMissing_eq_some (a := ab.1) (b := ab.2) (by rw [hfm])
      exact ⟨t, ht, ab.2, hb, hmem⟩
    | none =>
      exfalso
      rw [topological_sort_none_eq hfm] at herr
      split at herr <;> simp at herr
  · intro hmiss
    have hfm : findMissing tasks = none := findMissing_eq_none_iff.mpr hmiss
    have hmiss2 : ∀ n d, d ∈ depsOf tasks n → d ∈ names tasks :=
      fun n d hd => depsOf_subset_names hmiss hd
    have hpost := topo_post tasks hnd
    rw [topological_sort_none_eq hfm]
    constructor
    · intro herr
      split at herr
      · next hne => exact post_cycle hnd hmiss2 hpost hne
      · exact Except.noConfusion herr
    · intro hcyc
      split
      · rfl
      · next heq =>
        exact absurd hcyc
          (post_no_cycle hnd hpost (post_perm hpost (not_not.mp heq)))
  · intro levels hok
    cases hfm : findMissing tasks with
    | some ab =>
      rw [topological_sort_some_eq (a := ab.1) (b := ab.2) (by rw [hfm])] at hok
      exact Except.noConfusion hok
    | none =>
      rw [topological_sort_none_eq hfm] at hok
      have hpost := topo_post tasks hnd
      split at hok
      · exact Except.noConfusion hok
      · next heq =>
        have hlen := not_not.mp heq
        have hlev := Except.ok.inj hok
        have hperm := post_perm hpost hlen
        obtain ⟨h1, h2, h3, h4, h5⟩ := hpost
        rw [hlev] at h2 h4 hperm
        refine ⟨layered_exists_index h4, ?_, hperm⟩
        intro n hn
        exact layers_countP_one h2 (hperm.mem_iff.mpr hn)

/-- Witness for `C1_topological_sort` at the concrete chain
`A ← B`. -/
theorem C1_topological_sort_witness : TopoSortSpec c1tasks :=
  C1_topological_sort c1tasks (by decide)

/-! ## C2 — terminal task failure aborts the workflow -/

/-- If every attempt from `attempt` through the retry budget fails, the
retry loop persists `status = "failed"` with a `failedRes` error
summary on the task and publishes a `taskFailed` event. -/
theorem execWithRetry_fail (t : RTask) :
    ∀ (remaining attempt : Nat),
      attempt ≤ t.retry_policy.max_retries →
      attempt + remaining = t.retry_policy.max_retries + 1 →
      (∀ n, attempt ≤ n → n ≤ t.retry_policy.max_retries →
        (t.run n).isOk = false) →
      (execWithRetry t attempt remaining).2.status = "failed" ∧
      (execWithRetry t attempt remaining).2.name = t.name ∧
      (∃ e a, (execWithRetry t attempt remaining).2.result =
        some (TaskResult.failedRes e a)) ∧
      (∃ e, Event.taskFailed t.name e ∈ (execWithRetry t attempt remaining).1) := by
  intro remaining
  induction remaining with
  | zero =>
    intro attempt hle hsum _
    omega
  | succ remaining ih =>
    intro attempt hle hsum hfail
    have hrun := hfail attempt le_rfl hle
    cases hrunEq : t.run attempt with
    | ok r =>
      rw [hrunEq] at hrun
      simp [Outcome.isOk] at hrun
    | timeout =>
      by_cases hretry : t.retry_policy.should_retry attempt = true
      · have hlt : attempt < t.retry_policy.max_retries := by
          simpa [RetryPolicy.should_retry] using hretry
        obtain ⟨h1, h2, h3, e, h4⟩ := ih (attempt + 1) (by omega) (by omega)
          (fun n hn1 hn2 => hfail n (by omega) hn2)
        simp only [execWithRetry, hrunEq, hretry, if_true]
        exact ⟨h1, h2, h3, e, List.mem_cons_of_mem _ h4⟩
      · refine ⟨by simp [execWithRetry, hrunEq, hretry],
          by simp [execWithRetry, hrunEq, hretry],
          ⟨"Task timed out", attempt + 1, by simp [execWithRetry, hrunEq, hretry]⟩,
          "timeout", by simp [execWithRetry, hrunEq, hretry]⟩
    | err e =>
      by_cases hretry : t.retry_policy.should_retry attempt = true
      · have hlt : attempt < t.retry_policy.max_retries := by
          simpa [RetryPolicy.should_retry] using hretry
        obtain ⟨h1, h2, h3, e2, h4⟩ := ih (attempt + 1) (by omega) (by omega)
          (fun n hn1 hn2 => hfail n (by omega) hn2)
        simp only [execWithRetry, hrunEq, hretry, if_true]
        exact ⟨h1, h2, h3, e2, List.mem_cons_of_mem _ h4⟩
      · refine ⟨by simp [execWithRetry, hrunEq, hretry],
          by simp [execWithRetry, hrunEq, hretry],
          ⟨e, attempt + 1, by simp [execWithRetry, hrunEq, hretry]⟩,
          e, by simp [execWithRetry, hrunEq, hretry]⟩

/-- If some attempt within the budget succeeds, the retry loop persists
`status = "completed"`. -/
theorem execWithRetry_complete (t : RTask) :
    ∀ (remaining attempt : Nat),
      attempt + remaining = t.retry_policy.max_retries + 1 →
      (∃ n r, attempt ≤ n ∧ n ≤ t.retry_policy.max_retries ∧
        t.run n = Outcome.ok r) →
      (execWithRetry t attempt remaining).2.status = "completed" := by
  intro remaining
  induction remaining with
  | zero =>
    rintro attempt hsum ⟨n, r, hn1, hn2, _⟩
    omega
  | succ remaining ih =>
    rintro attempt hsum ⟨n, r, hn1, hn2, hrun⟩
    cases hrunEq : t.run attempt with
    | ok r2 => simp [execWithRetry, hrunEq]
    | timeout =>
      have hne : ¬ n = attempt := by
        intro h0
        rw [h0, hrunEq] at hrun
        exact Outcome.noConfusion hrun
      have hretry : t.retry_policy.should_retry attempt = true := by
        simp only [RetryPolicy.should_retry, decide_eq_true_eq]
        omega
      simp only [execWithRetry, hrunEq, hretry, if_true]
      exact ih (attempt + 1) (by omega) ⟨n, r, by omega, hn2, hrun⟩
    | err e =>
      have hne : ¬ n = attempt := by
        intro h0
        rw [h0, hrunEq] at hrun
        exact Outcome.noConfusion hrun
      have hretry : t.retry_policy.should_retry attempt = true := by
        simp only [RetryPolicy.should_retry, decide_eq_true_eq]
        omega
      simp only [execWithRetry, hrunEq, hretry, if_true]
      exact ih (attempt + 1) (by omega) ⟨n, r, by omega, hn2, hrun⟩

/-- Every event the retry loop publishes names the task it runs. -/
theorem execWithRetry_events (t : RTask) :
    ∀ (remaining attempt : Nat) (ev : Event),
      ev ∈ (execWithRetry t attempt remaining).1 →
      eventTaskName ev = some t.name := by
  intro remaining
  induction remaining with
  | zero =>
    intro attempt ev hev
    simp [execWithRetry] at hev
  | succ remaining ih =>
    intro attempt ev hev
    cases hrunEq : t.run attempt with
    | ok r =>
      simp only [execWithRetry, hrunEq, List.mem_cons, List.mem_singleton,
        List.not_mem_nil, or_false] at hev
      rcases hev with h | h <;> rw [h] <;> rfl
    | timeout =>
      by_cases hretry : t.retry_policy.should_retry attempt = true
      · simp only [execWithRetry, hrunEq, hretry, if_true,
          List.mem_cons] at hev
        rcases hev with h | h
        · rw [h]; rfl
        · exact ih (attempt + 1) ev h
      · simp only [execWithRetry, hrunEq, hretry, if_false,
          Bool.false_eq_true, List.mem_cons, List.mem_singleton,
          List.not_mem_nil, or_false] at hev
        rcases hev with h | h <;> rw [h] <;> rfl
    | err e =>
      by_cases hretry : t.retry_policy.should_retry attempt = true
      · simp only [execWithRetry, hrunEq, hretry, if_true,
          List.mem_cons] at hev
        rcases hev with h | h
        · rw [h]; rfl
        · exact ih (attempt + 1) ev h
      · simp only [execWithRetry, hrunEq, hretry, if_false,
          Bool.false_eq_true, List.mem_cons, List.mem_singleton,
          List.not_mem_nil, or_false] at hev
        rcases hev with h | h <;> rw [h] <;> rfl

theorem execTask_fail {t : RTask} (h : TerminallyFails t) :
    (execTask t).2.status = "failed" ∧ (execTask t).2.name = t.name ∧
    (∃ e a, (execTask t).2.result = some (TaskResult.failedRes e a)) ∧
    (∃ e, Event.taskFailed t.name e ∈ (execTask t).1) :=
  execWithRetry_fail t (t.retry_policy.max_retries + 1) 0 (Nat.zero_le _)
    (by omega) (fun n _ h2 => h n h2)

theorem execTask_complete {t : RTask} (h : ¬ TerminallyFails t) :
    (execTask t).2.status = "completed" := by
  unfold TerminallyFails at h
  push_neg at h
  obtain ⟨n, hn, hok⟩ := h
  cases hrunEq : t.run n with
  | ok r =>
    exact execWithRetry_complete t (t.retry_policy.max_retries + 1) 0
      (by omega) ⟨n, r, Nat.zero_le n, hn, hrunEq⟩
  | timeout =>
    rw [hrunEq] at hok
    simp [Outcome.isOk] at hok
  | err e =>
    rw [hrunEq] at hok
    simp [Outcome.isOk] at hok

theorem runLayer_recs (L : List RTask) :
    (runLayer L).2 = L.map (fun u => (execTask u).2) := by
  simp [runLayer]

theorem runLayer_failed_iff (L : List RTask) :
    layerFailed (runLayer L).2 = true ↔ ∃ u ∈ L, TerminallyFails u := by
  unfold layerFailed
  rw [List.any_eq_true]
  constructor
  · rintro ⟨rec, hrec, hstat⟩
    rw [runLayer_recs] at hrec
    obtain ⟨u, hu, hueq⟩ := List.mem_map.mp hrec
    refine ⟨u, hu, ?_⟩
    by_contra hfail
    have hcomp := execTask_complete hfail
    rw [hueq] at hcomp
    rw [hcomp] at hstat
    simp at hstat
  · rintro ⟨u, hu, hfail⟩
    refine ⟨(execTask u).2, ?_, ?_⟩
    · rw [runLayer_recs]
      exact List.mem_map_of_mem _ hu
    · simp [(execTask_fail hfail).1]

theorem runLayer_events_mem {L : List RTask} {u : RTask} (hu : u ∈ L)
    {ev : Event} (hev : ev ∈ (execTask u).1) : ev ∈ (runLayer L).1 := by
  unfold runLayer
  simp only [List.mem_flatMap, List.mem_map]
  exact ⟨execTask u, ⟨u, hu, rfl⟩, hev⟩

theorem runLayer_events_src {L : List RTask} {ev : Event}
    (hev : ev ∈ (runLayer L).1) : ∃ u ∈ L, ev ∈ (execTask u).1 := by
  unfold runLayer at hev
  simp only [List.mem_flatMap, List.mem_map] at hev
  obtain ⟨pair, ⟨u, hu, hupair⟩, hevp⟩ := hev
  refine ⟨u, hu, ?_⟩
  rw [← hupair] at hevp
  exact hevp

theorem runLayer_recs_mem {L : List RTask} {u : RTask} (hu : u ∈ L) :
    (execTask u).2 ∈ (runLayer L).2 := by
  rw [runLayer_recs]
  exact List.mem_map_of_mem _ hu

/-- The layer loop when layer `pre.length` holds a terminally failing
task, no earlier layer does, and no pause is observed up to it: the
workflow ends `failed` with the `taskFailed` event published before the
final `workflowStatus "failed"` event, the whole failing layer runs to
completion, and only tasks of the processed layers ever start. -/
theorem execLayers_failing (obs : Nat → String) (tasks : List RTask)
    (t : RTask) (ht : t ∈ tasks) (hfail : TerminallyFails t) :
    ∀ (pre : List (List String)) (level : List String)
      (post : List (List String)) (i : Nat) (st : WfRun),
      (∀ k, k ≤ pre.length → ¬ obs (i + k) = "paused") →
      (∀ L ∈ pre, ∀ u ∈ tasks, u.name ∈ L → ¬ TerminallyFails u) →
      t.name ∈ level →
      (execLayers obs tasks i (pre ++ level :: post) st).status = "failed" ∧
      (∃ e pref,
        (execLayers obs tasks i (pre ++ level :: post) st).events =
          pref ++ [Event.workflowStatus "failed"] ∧
        Event.taskFailed t.name e ∈ pref) ∧
      (∀ u ∈ tasks, u.name ∈ level →
        (execTask u).2 ∈
          (execLayers obs tasks i (pre ++ level :: post) st).taskRecs) ∧
      (∀ n, Event.taskRunning n ∈
          (execLayers obs tasks i (pre ++ level :: post) st).events →
        Event.taskRunning n ∈ st.events ∨
        ∃ u ∈ tasks, n = u.name ∧
          (u.name ∈ level ∨ ∃ L ∈ pre, u.name ∈ L)) := by
  intro pre
  induction pre with
  | nil =>
    intro level post i st hobs hpre htl
    have hnp : ¬ obs i = "paused" := by simpa using hobs 0 (by omega)
    have htlt : t ∈ tasks.filter (fun u => level.contains u.name) :=
      List.mem_filter.mpr ⟨ht, List.elem_iff.mpr htl⟩
    have hlf : layerFailed
        (runLayer (tasks.filter (fun u => level.contains u.name))).2 = true :=
      (runLayer_failed_iff _).mpr ⟨t, htlt, hfail⟩
    simp only [List.nil_append, execLayers, if_neg hnp, hlf, if_true]
    obtain ⟨_, _, _, e, he⟩ := execTask_fail hfail
    refine ⟨trivial, ⟨e,
      st.events ++ (runLayer (tasks.filter (fun u => level.contains u.name))).1,
      by simp, List.mem_append.mpr (Or.inr (runLayer_events_mem htlt he))⟩,
      ?_, ?_⟩
    · intro u hu hul
      have humem : u ∈ tasks.filter (fun u => level.contains u.name) :=
        List.mem_filter.mpr ⟨hu, List.elem_iff.mpr hul⟩
      exact List.mem_append.mpr (Or.inr (runLayer_recs_mem humem))
    · intro n hn
      simp only [List.mem_append, List.mem_singleton] at hn
      rcases hn with (hstev | hout) | hws
      · exact Or.inl hstev
      · obtain ⟨u, huf, hev⟩ := runLayer_events_src hout
        have h1 := List.mem_filter.mp huf
        have hname := execWithRetry_events u _ 0 _ hev
        simp only [eventTaskName, Option.some.injEq] at hname
        exact Or.inr ⟨u, h1.1, hname, Or.inl (List.elem_iff.mp h1.2)⟩
      · exact absurd hws (by simp)
  | cons L pre2 ih =>
    intro level post i st hobs hpre htl
    have hnp : ¬ obs i = "paused" := by simpa using hobs 0 (by omega)
    have hnofail : ¬ layerFailed
        (runLayer (tasks.filter (fun u => L.contains u.name))).2 = true := by
      intro h
      obtain ⟨u, huf, hufail⟩ := (runLayer_failed_iff _).mp h
      have h1 := List.mem_filter.mp huf
      exact hpre L (List.mem_cons_self _ _) u h1.1 (List.elem_iff.mp h1.2) hufail
    simp only [List.cons_append, execLayers, if_neg hnp, if_neg hnofail]
    obtain ⟨h1, h2, h3, h4⟩ := ih level post (i + 1)
      { st with
        status := obs i,
        events := st.events ++
          (runLayer (tasks.filter (fun u => L.contains u.name))).1,
        taskRecs := st.taskRecs ++
          (runLayer (tasks.filter (fun u => L.contains u.name))).2 }
      (by
        intro k hk
        have := hobs (k + 1) (by simp only [List.length_cons]; omega)
        rwa [show i + (k + 1) = i + 1 + k by omega] at this)
      (fun L2 hL2 => hpre L2 (List.mem_cons_of_mem _ hL2))
      htl
    refine ⟨h1, h2, h3, ?_⟩
    intro n hn
    rcases h4 n hn with hst2 | hrest
    · simp only [List.mem_append] at hst2
      rcases hst2 with hstev | hout
      · exact Or.inl hstev
      · obtain ⟨u, huf, hev⟩ := runLayer_events_src hout
        have h5 := List.mem_filter.mp huf
        have hname := execWithRetry_events u _ 0 _ hev
        simp only [eventTaskName, Option.some.injEq] at hname
        exact Or.inr ⟨u, h5.1, hname,
          Or.inr ⟨L, List.mem_cons_self _ _, List.elem_iff.mp h5.2⟩⟩
    · obtain ⟨u, hu, hname, hcase⟩ := hrest
      refine Or.inr ⟨u, hu, hname, ?_⟩
      rcases hcase with h | ⟨L2, hL2, hL2m⟩
      · exact Or.inl h
      · exact Or.inr ⟨L2, List.mem_cons_of_mem _ hL2, hL2m⟩

/-- On a successful sort the emitted layers are pairwise-disjoint sets
of task names (their concatenation is a duplicate-free permutation of
the names). -/
theorem topological_sort_ok_parts {tasks : List Task}
    {levels : List (List String)} (hnd : (names tasks).Nodup)
    (hok : topological_sort tasks = .ok levels) :
    levels.flatten.Nodup ∧ levels.flatten.Perm (names tasks) := by
  cases hfm : findMissing tasks with
  | some ab =>
    rw [topological_sort_some_eq (a := ab.1) (b := ab.2) (by rw [hfm])] at hok
    exact Except.noConfusion hok
  | none =>
    rw [topological_sort_none_eq hfm] at hok
    have hpost := topo_post tasks hnd
    split at hok
    · exact Except.noConfusion hok
    · next heq =>
      have hlen := not_not.mp heq
      have hlev := Except.ok.inj hok
      have hperm := post_perm hpost hlen
      obtain ⟨_, h2, _, _, _⟩ := hpost
      rw [hlev] at h2 hperm
      exact ⟨h2, hperm⟩

/-- C2: if a task of layer `pre.length` fails terminally (its whole
retry budget, timeouts included, yields no success), earlier layers all
succeed, and no pause is observed, then the workflow ends `failed`, the
task's failure is persisted (`status = "failed"` with an error summary)
and its `taskFailed` event precedes the final workflow `failed` event,
every task of the failing layer still runs to its own completion (none
is killed), and no task of any later layer is ever started. -/
theorem C2_terminal_failure_aborts
    (obs : Nat → String) (tasks : List RTask) (t : RTask)
    (pre : List (List String)) (level : List String)
    (post : List (List String))
    (hnd : (names (tasks.map RTask.toTask)).Nodup)
    (htopo : topological_sort (tasks.map RTask.toTask) =
      .ok (pre ++ level :: post))
    (hobs : ∀ k, k ≤ pre.length → ¬ obs k = "paused")
    (hpre : ∀ L ∈ pre, ∀ u ∈ tasks, u.name ∈ L → ¬ TerminallyFails u)
    (ht : t ∈ tasks) (htl : t.name ∈ level) (hfail : TerminallyFails t) :
    (execute_workflow obs tasks).status = "failed" ∧
    (∃ e pref, (execute_workflow obs tasks).events =
        pref ++ [Event.workflowStatus "failed"] ∧
      Event.taskFailed t.name e ∈ pref) ∧
    ((execTask t).2.status = "failed" ∧
      ∃ e a, (execTask t).2.result = some (TaskResult.failedRes e a)) ∧
    (∀ u ∈ tasks, u.name ∈ level →
      (execTask u).2 ∈ (execute_workflow obs tasks).taskRecs) ∧
    (∀ L2 ∈ post, ∀ n ∈ L2,
      ¬ Event.taskRunning n ∈ (execute_workflow obs tasks).events) := by
  have hwf : execute_workflow obs tasks =
      execLayers obs tasks 0 (pre ++ level :: post)
        ⟨"running", [Event.workflowStatus "running"], []⟩ := by
    simp only [execute_workflow, htopo]
  obtain ⟨h1, h2, h3, h4⟩ := execLayers_failing obs tasks t ht hfail pre level
    post 0 ⟨"running", [Event.workflowStatus "running"], []⟩
    (by intro k hk; simpa using hobs k hk)
    hpre htl
  rw [hwf]
  refine ⟨h1, h2, ⟨(execTask_fail hfail).1, (execTask_fail hfail).2.2.1⟩, h3, ?_⟩
  intro L2 hL2 n hnL2 hev
  rcases h4 n hev with hst | ⟨u, hu, hname, hcase⟩
  · simp at hst
  · subst hname
    obtain ⟨hfnodup, _⟩ := topological_sort_ok_parts hnd htopo
    have hfl : (pre ++ level :: post).flatten =
        pre.flatten ++ (level ++ post.flatten) := by
      simp
    rw [hfl] at hfnodup
    have hnd1 := List.nodup_append.mp hfnodup
    have hnpost : u.name ∈ post.flatten := List.mem_flatten.mpr ⟨L2, hL2, hnL2⟩
    rcases hcase with hlev | ⟨L, hL, hLm⟩
    · exact (List.nodup_append.mp hnd1.2.1).2.2 hlev hnpost
    · exact hnd1.2.2 (List.mem_flatten.mpr ⟨L, hL, hLm⟩)
        (List.mem_append.mpr (Or.inr hnpost))

/-- Witness for `C2_terminal_failure_aborts`: three chained tasks
`A ← B ← C` with `B` failing every attempt of its budget of one
retry. -/
theorem C2_terminal_failure_aborts_witness :
    (execute_workflow (fun _ => "running") c2tasks).status = "failed" ∧
    (∃ e pref, (execute_workflow (fun _ => "running") c2tasks).events =
        pref ++ [Event.workflowStatus "failed"] ∧
      Event.taskFailed c2taskB.name e ∈ pref) ∧
    ((execTask c2taskB).2.status = "failed" ∧
      ∃ e a, (execTask c2taskB).2.result = some (TaskResult.failedRes e a)) ∧
    (∀ u ∈ c2tasks, u.name ∈ ["B"] →
      (execTask u).2 ∈ (execute_workflow (fun _ => "running") c2tasks).taskRecs) ∧
    (∀ L2 ∈ [["C"]], ∀ n ∈ L2,
      ¬ Event.taskRunning n ∈
        (execute_workflow (fun _ => "running") c2tasks).events) :=
  C2_terminal_failure_aborts (fun _ => "running") c2tasks c2taskB
    [["A"]] ["B"] [["C"]]
    (by decide) (by rfl) (by decide)
    (by
      intro L hL u hu hname hterm
      simp only [List.mem_singleton] at hL
      subst hL
      simp only [c2tasks, List.mem_cons, List.not_mem_nil, or_false] at hu
      rcases hu with h | h | h <;> subst h
      · exact absurd (hterm 0 (by omega)) (by simp [c2taskA, Outcome.isOk])
      · simp [c2taskB] at hname
      · simp [c2taskC] at hname)
    (by
      unfold c2tasks
      exact List.mem_cons_of_mem _ (List.mem_cons_self _ _))
    (by decide) (fun n _ => rfl)

end Orbit
